import Mathlib

/-!
Verification development for the `dataclasses-codec` repository
(`src/dataclasses_codec/codecs/json.py` and friends).

The Python source is shallowly embedded: Python runtime values relevant to the
codec become the inductive `Value`, dataclass schemas become `DataClass` /
`FieldD`, declared field types become `Ty`, and the recursive functions
`_encode`, `_decode_dataclass`, `_decode_field`, `_get_json_field_name` and
`snake_to_camel` become fueled Lean functions of the same names (fuel makes the
mutual recursion structurally terminating and keeps every definition
kernel-computable; fuel exhaustion is the distinguished error `PyErr.noFuel`,
which no actual run with sufficient fuel produces).

Python exceptions are modelled by `PyErr` (`ValueError`, `TypeError`,
`IndexError`, `KeyError`, `AttributeError`); the union-decoding loop in the
source catches exactly `ValueError`, which the embedding mirrors.  String
manipulation is modelled on `List Char` (Python `str.split`, `str.capitalize`,
substring containment) restricted to ASCII case mapping, which covers every
identifier and example in the repository.
-/

namespace DCodec

/-! ### Python string primitives, modelled on character lists -/

/-- Python `s.split(sep)` for a one-character separator: splitting the empty
string yields `[""]`, adjacent separators yield empty segments. -/
def splitOnChar (c : Char) : List Char → List (List Char)
  | [] => [[]]
  | x :: xs =>
    if x = c then [] :: splitOnChar c xs
    else
      match splitOnChar c xs with
      | [] => [[x]]
      | h :: t => (x :: h) :: t

/-- Python `str.capitalize()`: first character uppercased, all remaining
characters lowercased (ASCII case mapping). -/
def pyCapitalize (s : String) : String :=
  match s.data with
  | [] => ""
  | c :: cs => String.mk (c.toUpper :: cs.map Char.toLower)

/-- `snake_to_camel` from `codecs/json.py`:
`''.join(word.capitalize() if i > 0 else word for i, word in enumerate(s.split('_')))`. -/
def snake_to_camel (s : String) : String :=
  String.join ((((splitOnChar '_' s.data).map String.mk).enum).map
    (fun p => if 0 < p.1 then pyCapitalize p.2 else p.2))

/-- Whether `sub` is a prefix of `l` (character lists). -/
def isPrefixOfL : List Char → List Char → Bool
  | [], _ => true
  | _ :: _, [] => false
  | a :: as1, b :: bs => a == b && isPrefixOfL as1 bs

/-- Whether `sub` occurs as a contiguous sublist of `l`. -/
def containsSubL (sub : List Char) : List Char → Bool
  | [] => isPrefixOfL sub []
  | l@(_ :: t) => isPrefixOfL sub l || containsSubL sub t

/-- Python `needle in haystack` for strings (substring containment). -/
def strContains (haystack needle : String) : Bool :=
  containsSubL needle.data haystack.data

/-- The single-quote character as a string, used by Python `repr` of a string. -/
def sq : String := String.singleton (Char.ofNat 39)

/-- Python `repr` of a short string key (no escaping needed for the keys that
appear in this development): surround with single quotes. -/
def pyRepr (s : String) : String := sq ++ s ++ sq

/-! ### Date and datetime scalars (external `datetime` collaborator)

`dt.date` / `dt.datetime` are standard-library collaborators of the codec; the
spec treats them as scalars with canonical ISO text forms.  They are modelled
with explicit component records, a concrete formatter and a concrete parser for
the canonical forms (`YYYY-MM-DD`, `YYYY-MM-DDTHH:MM:SS`; fractional seconds
and time zones are not exercised by the repository and are not modelled). -/

structure DateV where
  year : Nat
  month : Nat
  day : Nat
deriving DecidableEq, Repr

structure DateTimeV where
  date : DateV
  hour : Nat
  minute : Nat
  second : Nat
deriving DecidableEq, Repr

/-- Decimal digit character for `n % 10`. -/
def digitChar (n : Nat) : Char := Char.ofNat (48 + n % 10)

/-- Zero-padded two-digit decimal rendering. -/
def pad2 (n : Nat) : List Char := [digitChar (n / 10), digitChar n]

/-- Zero-padded four-digit decimal rendering. -/
def pad4 (n : Nat) : List Char :=
  [digitChar (n / 1000), digitChar (n / 100), digitChar (n / 10), digitChar n]

/-- `date.isoformat()`: `YYYY-MM-DD`. -/
def DateV.isoformat (d : DateV) : String :=
  String.mk (pad4 d.year ++ '-' :: pad2 d.month ++ '-' :: pad2 d.day)

/-- `datetime.isoformat()`: `YYYY-MM-DDTHH:MM:SS` (no microseconds modelled). -/
def DateTimeV.isoformat (d : DateTimeV) : String :=
  d.date.isoformat ++
    String.mk ('T' :: pad2 d.hour ++ ':' :: pad2 d.minute ++ ':' :: pad2 d.second)

/-- Parse a run of decimal digits; `none` on the empty list or a non-digit. -/
def digitsToNat : List Char → Option Nat
  | [] => none
  | cs => go cs 0
where
  go : List Char → Nat → Option Nat
    | [], acc => some acc
    | c :: cs, acc =>
      if 48 ≤ c.toNat ∧ c.toNat ≤ 57 then go cs (acc * 10 + (c.toNat - 48))
      else none

/-- Days per month, with leap years (mirrors the stdlib calendar rules). -/
def daysInMonth (y m : Nat) : Nat :=
  if m = 2 then (if (y % 4 = 0 ∧ y % 100 ≠ 0) ∨ y % 400 = 0 then 29 else 28)
  else if m = 4 ∨ m = 6 ∨ m = 9 ∨ m = 11 then 30 else 31

/-- Range validity of date components (`datetime.date` accepts exactly these). -/
def validParts (y m d : Nat) : Bool :=
  decide (1 ≤ y ∧ y ≤ 9999 ∧ 1 ≤ m ∧ m ≤ 12 ∧ 1 ≤ d ∧ d ≤ daysInMonth y m)

/-- Parse the canonical `YYYY-MM-DD` form. -/
def parseDate (s : String) : Option DateV :=
  match splitOnChar '-' s.data with
  | [ys, ms, ds] =>
    if ys.length = 4 ∧ ms.length = 2 ∧ ds.length = 2 then
      match digitsToNat ys, digitsToNat ms, digitsToNat ds with
      | some y, some m, some d => if validParts y m d then some ⟨y, m, d⟩ else none
      | _, _, _ => none
    else none
  | _ => none

/-- Parse the canonical `HH:MM:SS` time form. -/
def parseTime (cs : List Char) : Option (Nat × Nat × Nat) :=
  match splitOnChar ':' cs with
  | [hs, ms, ss] =>
    if hs.length = 2 ∧ ms.length = 2 ∧ ss.length = 2 then
      match digitsToNat hs, digitsToNat ms, digitsToNat ss with
      | some h, some m, some s =>
        if h ≤ 23 ∧ m ≤ 59 ∧ s ≤ 59 then some (h, m, s) else none
      | _, _, _ => none
    else none
  | _ => none

/-- Parse the canonical `YYYY-MM-DDTHH:MM:SS` form (`datetime.fromisoformat`
also accepts a bare date, giving midnight). -/
def parseDateTime (s : String) : Option DateTimeV :=
  match splitOnChar 'T' s.data with
  | [ds] =>
    match parseDate (String.mk ds) with
    | some d => some ⟨d, 0, 0, 0⟩
    | none => none
  | [ds, ts] =>
    match parseDate (String.mk ds), parseTime ts with
    | some d, some (h, m, sec) => some ⟨d, h, m, sec⟩
    | _, _ => none
  | _ => none

/-- A date whose canonical text form parses back to itself (true of every real
calendar date; stated as an executable check so that concrete witnesses can be
verified by evaluation). -/
def DateV.valid (d : DateV) : Bool := parseDate d.isoformat == some d

/-- A datetime whose canonical text form parses back to itself. -/
def DateTimeV.valid (d : DateTimeV) : Bool := parseDateTime d.isoformat == some d

/-! ### Python exceptions -/

/-- The exception classes that the codec internals can raise.  `noFuel` is the
fuel-exhaustion artifact of the embedding; it is not a `valueError`, so — like
any non-`ValueError` in the source — the union-decoding loop propagates it. -/
inductive PyErr where
  | valueError (msg : String)
  | typeError (msg : String)
  | indexError
  | keyError
  | attributeError
  | noFuel
deriving DecidableEq, Repr

/-! ### Custom per-field hooks

The source stores arbitrary callables in dataclass field metadata
(`JSON_SERIALIZER` / `JSON_DESERIALIZER`).  The embedding models a small
universe of such callables: the date serializer/deserializer pair used by the
repository's tests, a constant function, and an always-raising function. -/

inductive Hook where
  | dateIsoSer
  | dateIsoDeser
  | constInt (n : Int)
  | failing
deriving DecidableEq, Repr

/-! ### Schemas and values -/

mutual
/-- A declared field type as the decoder dispatches on it: `str`/`int`/`bool`
scalars, `NoneType`, `dt.date`, `dt.datetime`, plain-`dict` types
(`Dict[str, Any]` and friends: `get_origin` is `dict`, which matches no decode
branch), `List[T]`, fixed `Tuple[T1..Tn]`, unions, and nested dataclasses. -/
inductive Ty where
  | str
  | int
  | bool
  | null
  | date
  | datetime
  | dict
  | list (t : Ty)
  | tup (ts : List Ty)
  | union (ts : List Ty)
  | dc (d : DataClass)

/-- A dataclass type: its name and its `fields(cls)` list in declaration
order. -/
inductive DataClass where
  | mk (cname : String) (fieldsList : List FieldD)

/-- A `dataclasses.Field`: name, declared type, `default`, `default_factory`
(the value a fresh factory call produces; freshness is not observable in a pure
model), and the `json_name` / `json_serializer` / `json_deserializer` metadata
entries of `json_field`. -/
inductive FieldD where
  | mk (fname : String) (fty : Ty) (dflt : Option Value) (factory : Option Value)
      (jsonName : Option String) (ser : Option Hook) (deser : Option Hook)

/-- A Python runtime value as the codec sees it: JSON scalars, `None`, the
`JSON_MISSING` sentinel (the unique `JSONOptional` instance), date/datetime
scalars, lists, tuples, string-keyed dicts, and dataclass instances (which
carry their own class, as `fields(obj)` reads the schema from the instance). -/
inductive Value where
  | str (s : String)
  | int (n : Int)
  | bool (b : Bool)
  | null
  | missing
  | date (d : DateV)
  | datetime (d : DateTimeV)
  | list (xs : List Value)
  | tup (xs : List Value)
  | dict (es : List (String × Value))
  | inst (cls : DataClass) (vals : List Value)
end

def DataClass.cname : DataClass → String
  | .mk n _ => n

def DataClass.fieldsList : DataClass → List FieldD
  | .mk _ fs => fs

def FieldD.fname : FieldD → String
  | .mk n _ _ _ _ _ _ => n

def FieldD.fty : FieldD → Ty
  | .mk _ t _ _ _ _ _ => t

def FieldD.dflt : FieldD → Option Value
  | .mk _ _ d _ _ _ _ => d

def FieldD.factory : FieldD → Option Value
  | .mk _ _ _ f _ _ _ => f

def FieldD.jsonName : FieldD → Option String
  | .mk _ _ _ _ j _ _ => j

def FieldD.ser : FieldD → Option Hook
  | .mk _ _ _ _ _ s _ => s

def FieldD.deser : FieldD → Option Hook
  | .mk _ _ _ _ _ _ d => d

/-- `value is None`. -/
def isNull : Value → Bool
  | .null => true
  | _ => false

/-- `value is JSON_MISSING` (identity test against the sentinel singleton). -/
def isMissing : Value → Bool
  | .missing => true
  | _ => false

/-- `is_dataclass(obj)`. -/
def isDataclassV : Value → Bool
  | .inst _ _ => true
  | _ => false

/-- `_get_json_field_name`: a `json_name` metadata override wins outright;
otherwise the camel-case transform applies exactly when the flag is set. -/
def getJsonFieldName (fieldObj : Option FieldD) (fieldName : String)
    (toCamel : Bool) : String :=
  match fieldObj with
  | some f =>
    match f.jsonName with
    | some n => n
    | none => if toCamel then snake_to_camel fieldName else fieldName
  | none => if toCamel then snake_to_camel fieldName else fieldName

/-- The wire key a field resolves to (the resolver applied as both `_encode`
and `_decode_dataclass` apply it: to the field object and its name). -/
def fieldKey (b : Bool) (f : FieldD) : String :=
  getJsonFieldName (some f) f.fname b

/-- The serializer/deserializer callables of `Hook`, as the codec calls them. -/
def runHook : Hook → Value → Except PyErr Value
  | .dateIsoSer, .date d => .ok (.str d.isoformat)
  | .dateIsoSer, .datetime d => .ok (.str d.isoformat)
  | .dateIsoSer, _ => .error .attributeError
  | .dateIsoDeser, .str s =>
    match parseDate s with
    | some d => .ok (.date d)
    | none => .error (.valueError "Invalid isoformat string")
  | .dateIsoDeser, _ => .error (.typeError "fromisoformat: argument must be str")
  | .constInt n, _ => .ok (.int n)
  | .failing, _ => .error (.valueError "hook failure")

/-! ### Python container protocol operations used by `_decode_dataclass` -/

/-- `key in raw` (`__contains__`): dict key membership; list/tuple element
membership (a string equals only an equal string); substring test on strings;
`TypeError` on everything else. -/
def pyContains (raw : Value) (k : String) : Except PyErr Bool :=
  match raw with
  | .dict es => .ok (es.any (fun e => e.1 == k))
  | .list xs => .ok (xs.any (fun v => match v with | .str s => s == k | _ => false))
  | .tup xs => .ok (xs.any (fun v => match v with | .str s => s == k | _ => false))
  | .str s => .ok (strContains s k)
  | _ => .error (.typeError "argument is not a container")

/-- `raw[key]` (`__getitem__` with a string key): dict lookup; `TypeError` for
sequence/string subscripts with a string index; `TypeError` otherwise. -/
def pyGetItem (raw : Value) (k : String) : Except PyErr Value :=
  match raw with
  | .dict es =>
    match es.lookup k with
    | some v => .ok v
    | none => .error .keyError
  | .list _ => .error (.typeError "list indices must be integers")
  | .tup _ => .error (.typeError "tuple indices must be integers")
  | .str _ => .error (.typeError "string indices must be integers")
  | _ => .error (.typeError "object is not subscriptable")

/-- `for v in val`: lists and tuples yield their elements, strings their
one-character substrings, dicts their keys; everything else raises
`TypeError`. -/
def pyIter (val : Value) : Except PyErr (List Value) :=
  match val with
  | .list xs => .ok xs
  | .tup xs => .ok xs
  | .str s => .ok (s.data.map (fun c => .str (String.singleton c)))
  | .dict es => .ok (es.map (fun e => .str e.1))
  | _ => .error (.typeError "object is not iterable")

/-- `result[k] = w` on a Python dict modelled as an association list in
insertion order: an existing key keeps its position and gets the new value, a
new key is appended. -/
def dictAssign (es : List (String × Value)) (k : String) (w : Value) :
    List (String × Value) :=
  if es.any (fun e => e.1 == k) then
    es.map (fun e => if e.1 == k then (e.1, w) else e)
  else es ++ [(k, w)]

/-! ### The recursive encoder `_encode`

All functions take a fuel parameter and pass one less to every call; fuel
exhaustion yields `PyErr.noFuel`.  `encodeFieldsE` is the dataclass field loop
(with the output dict as accumulator), `encodeEntriesE` the plain-dict
comprehension, `encodeListE` the list/tuple comprehension. -/

mutual
def encodeValE : Nat → Bool → Value → Except PyErr Value
  | 0, _, _ => .error .noFuel
  | n + 1, b, v =>
    match v with
    | .inst d vals =>
      match encodeFieldsE n b d.fieldsList vals [] with
      | .ok es => .ok (.dict es)
      | .error e => .error e
    | .date d => .ok (.str d.isoformat)
    | .datetime d => .ok (.str d.isoformat)
    | .list xs =>
      match encodeListE n b xs with
      | .ok ws => .ok (.list ws)
      | .error e => .error e
    | .tup xs =>
      match encodeListE n b xs with
      | .ok ws => .ok (.list ws)
      | .error e => .error e
    | .dict es =>
      match encodeEntriesE n b es [] with
      | .ok fs => .ok (.dict fs)
      | .error e => .error e
    | v => .ok v

def encodeFieldsE : Nat → Bool → List FieldD → List Value →
    List (String × Value) → Except PyErr (List (String × Value))
  | 0, _, _, _, _ => .error .noFuel
  | _ + 1, _, [], _, acc => .ok acc
  | _ + 1, _, _ :: _, [], _ => .error .attributeError
  | n + 1, b, f :: fr, v :: vr, acc =>
    if isMissing v then encodeFieldsE n b fr vr acc
    else
      match (match f.ser with
             | some h => if isNull v then .ok v else runHook h v
             | none => .ok v : Except PyErr Value) with
      | .error e => .error e
      | .ok v1 =>
        match encodeValE n b v1 with
        | .error e => .error e
        | .ok w => encodeFieldsE n b fr vr (dictAssign acc (fieldKey b f) w)

def encodeListE : Nat → Bool → List Value → Except PyErr (List Value)
  | 0, _, _ => .error .noFuel
  | _ + 1, _, [] => .ok []
  | n + 1, b, x :: xs =>
    match encodeValE n b x with
    | .error e => .error e
    | .ok w =>
      match encodeListE n b xs with
      | .error e => .error e
      | .ok ws => .ok (w :: ws)

def encodeEntriesE : Nat → Bool → List (String × Value) →
    List (String × Value) → Except PyErr (List (String × Value))
  | 0, _, _, _ => .error .noFuel
  | _ + 1, _, [], acc => .ok acc
  | n + 1, b, (k, v) :: er, acc =>
    match encodeValE n b v with
    | .error e => .error e
    | .ok w =>
      encodeEntriesE n b er (dictAssign acc (if b then snake_to_camel k else k) w)
end

/-! ### The recursive decoder `_decode_dataclass` / `_decode_field`

`decodeFieldE` is `_decode_field` (deserializer check first, then type
dispatch); the dispatch body is `decodeCoreE`.  `decodeFieldsE` is the field
loop of `_decode_dataclass`, producing the field values in declaration order
(`cls(**kwargs)` with unique field names).  `decodeTupleE` walks the wire list
against the tuple argument list in parallel, which is what the source's
`get_args(typ)[i]` indexing over `enumerate(val)` computes: elements beyond the
declared arity raise `IndexError`.  `decodeUnionE` is the union trial loop; it
catches exactly `valueError` and propagates every other failure. -/

mutual
def decodeFieldE : Nat → Ty → Value → Bool → Option FieldD → Except PyErr Value
  | 0, _, _, _, _ => .error .noFuel
  | n + 1, ty, val, b, fo =>
    match fo with
    | some f =>
      match f.deser with
      | some h => if isNull val then decodeCoreE n ty val b else runHook h val
      | none => decodeCoreE n ty val b
    | none => decodeCoreE n ty val b

def decodeCoreE : Nat → Ty → Value → Bool → Except PyErr Value
  | 0, _, _, _ => .error .noFuel
  | n + 1, ty, val, b =>
    match ty with
    | .dc d => decodeDataclassE n d val b
    | .tup ts =>
      match pyIter val with
      | .error e => .error e
      | .ok xs =>
        match decodeTupleE n b ts xs with
        | .ok ws => .ok (.tup ws)
        | .error e => .error e
    | .list t =>
      match pyIter val with
      | .error e => .error e
      | .ok xs =>
        match decodeListE n b t xs with
        | .ok ws => .ok (.list ws)
        | .error e => .error e
    | .date =>
      match val with
      | .str s =>
        match parseDate s with
        | some d => .ok (.date d)
        | none => .error (.valueError "Invalid isoformat string")
      | _ => .error (.typeError "fromisoformat: argument must be str")
    | .datetime =>
      match val with
      | .str s =>
        match parseDateTime s with
        | some d => .ok (.datetime d)
        | none => .error (.valueError "Invalid isoformat string")
      | _ => .error (.typeError "fromisoformat: argument must be str")
    | .null => if isNull val then .ok val else .error (.valueError "expected None")
    | .union ts => decodeUnionE n ts val b
    | _ => if isNull val then .error (.valueError "expected a value, got None") else .ok val

def decodeDataclassE : Nat → DataClass → Value → Bool → Except PyErr Value
  | 0, _, _, _ => .error .noFuel
  | n + 1, d, raw, b =>
    match decodeFieldsE n raw b d.fieldsList with
    | .ok vals => .ok (.inst d vals)
    | .error e => .error e

def decodeFieldsE : Nat → Value → Bool → List FieldD → Except PyErr (List Value)
  | 0, _, _, _ => .error .noFuel
  | _ + 1, _, _, [] => .ok []
  | n + 1, raw, b, f :: fr =>
    match pyContains raw (fieldKey b f) with
    | .error e => .error e
    | .ok c =>
      match (if c then
               match pyGetItem raw (fieldKey b f) with
               | .error e => .error e
               | .ok rv =>
                 if isNull rv then .ok Value.null
                 else decodeFieldE n f.fty rv b (some f)
             else
               match f.dflt with
               | some dv => .ok dv
               | none =>
                 match f.factory with
                 | some fv => .ok fv
                 | none =>
                   .error (.valueError ("missing field " ++ pyRepr (fieldKey b f)))
             : Except PyErr Value) with
      | .error e => .error e
      | .ok v =>
        match decodeFieldsE n raw b fr with
        | .error e => .error e
        | .ok vs => .ok (v :: vs)

def decodeTupleE : Nat → Bool → List Ty → List Value → Except PyErr (List Value)
  | 0, _, _, _ => .error .noFuel
  | _ + 1, _, _, [] => .ok []
  | n + 1, b, ts, v :: xr =>
    match ts with
    | [] => .error .indexError
    | t :: tr =>
      match decodeFieldE n t v b none with
      | .error e => .error e
      | .ok w =>
        match decodeTupleE n b tr xr with
        | .error e => .error e
        | .ok ws => .ok (w :: ws)

def decodeListE : Nat → Bool → Ty → List Value → Except PyErr (List Value)
  | 0, _, _, _ => .error .noFuel
  | _ + 1, _, _, [] => .ok []
  | n + 1, b, t, v :: xr =>
    match decodeFieldE n t v b none with
    | .error e => .error e
    | .ok w =>
      match decodeListE n b t xr with
      | .error e => .error e
      | .ok ws => .ok (w :: ws)

def decodeUnionE : Nat → List Ty → Value → Bool → Except PyErr Value
  | 0, _, _, _ => .error .noFuel
  | _ + 1, [], _, _ => .error (.valueError "no union member matched")
  | n + 1, t :: tr, val, b =>
    match decodeFieldE n t val b none with
    | .ok v => .ok v
    | .error (.valueError _) => decodeUnionE n tr val b
    | .error e => .error e
end

/-- The union trial loop instrumented with the index of the member whose decode
succeeded: identical control flow to `decodeUnionE`, additionally reporting
which declared member won. -/
def decodeUnionIdx : Nat → List Ty → Value → Bool → Except PyErr (Nat × Value)
  | 0, _, _, _ => .error .noFuel
  | _ + 1, [], _, _ => .error (.valueError "no union member matched")
  | n + 1, t :: tr, val, b =>
    match decodeFieldE n t val b none with
    | .ok v => .ok (0, v)
    | .error (.valueError _) =>
      match decodeUnionIdx n tr val b with
      | .ok (i, v) => .ok (i + 1, v)
      | .error e => .error e
    | .error e => .error e

/-! ### The entry points `JSONCodec.to_dict` / `JSONCodec.from_dict`

`CodecError` lives in `dataclasses_codec/errors.py`, which is not present under
`src/`.  Modelled from the spec: `CodecError` is the single outward-facing
wrapper kind, carrying the original cause when one exists; entry points catch
every internal exception and re-raise it wrapped.  `TopErr.uncaught` represents
any non-`CodecError` exception escaping an entry point (the theorems show it
never occurs). -/

inductive TopErr where
  | codecError (cause : Option PyErr)
  | uncaught (e : PyErr)
deriving DecidableEq, Repr

/-- `JSONCodec.to_dict`: reject non-dataclass input with a bare `CodecError`,
then run `_encode` with the instance flag or-ed with the call flag, wrapping
any exception as `CodecError` with the original cause. -/
def toDictE (n : Nat) (selfCamel toCamel : Bool) (obj : Value) :
    Except TopErr Value :=
  if isDataclassV obj then
    match encodeValE n (selfCamel || toCamel) obj with
    | .ok w => .ok w
    | .error e => .error (.codecError (some e))
  else .error (.codecError none)

/-- `JSONCodec.from_dict`: reject a non-dataclass target with a bare
`CodecError` (`cls = none` models a non-dataclass argument), then run
`_decode_dataclass` with `self.to_camel_case or to_snake_case` (as the source
literally computes), wrapping any exception as `CodecError` with cause. -/
def fromDictE (n : Nat) (selfCamel toSnake : Bool) (cls : Option DataClass)
    (data : Value) : Except TopErr Value :=
  match cls with
  | none => .error (.codecError none)
  | some d =>
    match decodeDataclassE n d data (selfCamel || toSnake) with
    | .ok r => .ok r
    | .error e => .error (.codecError (some e))

/-! ## Claim C4: the naming-convention transform -/

/-- The transform exactly as claim C4 words it: split on underscore, keep the
first segment as-is, capitalize the first letter of each subsequent segment
*leaving that segment's remaining characters unchanged*, concatenate. -/
def camelClaimC4 (s : String) : String :=
  match (splitOnChar '_' s.data).map String.mk with
  | [] => ""
  | h :: t => String.join (h :: t.map (fun w =>
      match w.data with
      | [] => ""
      | c :: cs => String.mk (c.toUpper :: cs)))

/-- The transform as the source computes it: subsequent segments go through
Python `str.capitalize()`, which also lowercases the rest of the segment. -/
def camelAmendedC4 (s : String) : String :=
  match (splitOnChar '_' s.data).map String.mk with
  | [] => ""
  | h :: t => String.join (h :: t.map pyCapitalize)

theorem enumFrom_camel (g : String → String) (t : List String) (n : Nat) :
    (List.enumFrom (n + 1) t).map (fun p => if 0 < p.1 then g p.2 else p.2) =
      t.map g := by
  induction t generalizing n with
  | nil => rfl
  | cons a as ih => simp [List.enumFrom, ih]

theorem enum_camel (g : String → String) (l : List String) :
    l.enum.map (fun p => if 0 < p.1 then g p.2 else p.2) =
      (match l with
       | [] => []
       | h :: t => h :: t.map g) := by
  cases l with
  | nil => rfl
  | cons h t =>
    show (List.enumFrom 0 (h :: t)).map _ = _
    simp only [List.enumFrom, List.map_cons, if_neg (by omega : ¬ 0 < 0)]
    rw [show (0 + 1) = 0 + 1 from rfl, enumFrom_camel]

/-- C4 (corrected): the source transform splits on underscores, keeps the first
segment as-is and applies Python `capitalize` to each later segment, which
uppercases its first letter *and lowercases the rest* — not, as the claim says,
leaving the remaining characters unchanged.  The worked examples of the claim
hold. -/
theorem C4_naming_transform_amended :
    (∀ s, snake_to_camel s = camelAmendedC4 s) ∧
      snake_to_camel "user_name" = "userName" ∧
      snake_to_camel "user_age" = "userAge" := by
  refine ⟨fun s => ?_, by decide, by decide⟩
  unfold snake_to_camel camelAmendedC4
  rw [enum_camel]
  cases h : (splitOnChar '_' s.data).map String.mk with
  | nil => rfl
  | cons a t => simp [String.join]

/-- C4 counterexample: on the field identifier `a_BC` the code produces `aBc`
(the rest of the second segment is lowercased), while the claim's transform
would produce `aBC`. -/
theorem C4_counterexample :
    snake_to_camel "a_BC" = "aBc" ∧ camelClaimC4 "a_BC" = "aBC" ∧
      ("aBc" : String) ≠ "aBC" := by
  decide

/-! ## Claim C2: union decoding -/

theorem unionE_eq_idx (n : Nat) :
    ∀ (ts : List Ty) (val : Value) (b : Bool),
      decodeUnionE n ts val b = (decodeUnionIdx n ts val b).map Prod.snd := by
  induction n with
  | zero => intro ts val b; rfl
  | succ n ih =>
    intro ts val b
    cases ts with
    | nil => rfl
    | cons t tr =>
      rw [decodeUnionE, decodeUnionIdx]
      cases h : decodeFieldE n t val b none with
      | ok v => rfl
      | error e =>
        cases e with
        | valueError msg =>
          rw [ih tr val b]
          cases decodeUnionIdx n tr val b with
          | ok p => rfl
          | error e2 => rfl
        | typeError m => rfl
        | indexError => rfl
        | keyError => rfl
        | attributeError => rfl
        | noFuel => rfl

theorem unionIdx_sound (n : Nat) :
    ∀ (ts : List Ty) (val : Value) (b : Bool) (i : Nat) (v : Value),
      decodeUnionIdx n ts val b = .ok (i, v) →
        (∃ (h : i < ts.length) (m : Nat),
            decodeFieldE m (ts.get ⟨i, h⟩) val b none = .ok v) ∧
        (∀ j (hj : j < ts.length), j < i →
            ∃ (m : Nat) (msg : String),
              decodeFieldE m (ts.get ⟨j, hj⟩) val b none = .error (.valueError msg)) := by
  induction n with
  | zero => intro ts val b i v h; exact absurd h (by simp [decodeUnionIdx])
  | succ n ih =>
    intro ts val b i v h
    cases ts with
    | nil => exact absurd h (by simp [decodeUnionIdx])
    | cons t tr =>
      rw [decodeUnionIdx] at h
      cases hd : decodeFieldE n t val b none with
      | ok w =>
        rw [hd] at h
        simp only [Except.ok.injEq, Prod.mk.injEq] at h
        obtain ⟨hi, hv⟩ := h
        subst hi hv
        exact ⟨⟨by simp, n, hd⟩, fun j hj hji => absurd hji (by omega)⟩
      | error e =>
        cases e with
        | valueError msg =>
          rw [hd] at h
          cases hr : decodeUnionIdx n tr val b with
          | ok p =>
            rw [hr] at h
            obtain ⟨i', v'⟩ := p
            simp only [Except.ok.injEq, Prod.mk.injEq] at h
            obtain ⟨hi, hv⟩ := h
            subst hi hv
            obtain ⟨⟨hlt, m, hm⟩, hbefore⟩ := ih tr val b i' v' hr
            refine ⟨⟨by simpa using Nat.succ_lt_succ hlt, m, by simpa using hm⟩, ?_⟩
            intro j hj hji
            cases j with
            | zero => exact ⟨n, msg, hd⟩
            | succ j' =>
              have hj' : j' < tr.length := by simpa using hj
              obtain ⟨m2, msg2, hm2⟩ := hbefore j' hj' (by omega)
              exact ⟨m2, msg2, by simpa using hm2⟩
          | error e2 => rw [hr] at h; exact absurd h (by simp)
        | typeError m => rw [hd] at h; exact absurd h (by simp)
        | indexError => rw [hd] at h; exact absurd h (by simp)
        | keyError => rw [hd] at h; exact absurd h (by simp)
        | attributeError => rw [hd] at h; exact absurd h (by simp)
        | noFuel => rw [hd] at h; exact absurd h (by simp)

theorem unionE_exhaust (ts : List Ty) (val : Value) (b : Bool)
    (hall : ∀ (m : Nat) (t : Ty), t ∈ ts → ∀ w, decodeFieldE m t val b none ≠ .ok w) :
    ∀ (n : Nat) (r : Value), decodeUnionE n ts val b ≠ .ok r := by
  intro n
  induction n generalizing ts with
  | zero => intro r h; exact absurd h (by simp [decodeUnionE])
  | succ n ih =>
    intro r h
    cases ts with
    | nil => exact absurd h (by simp [decodeUnionE])
    | cons t tr =>
      rw [decodeUnionE] at h
      cases hd : decodeFieldE n t val b none with
      | ok w => exact hall n t (by simp) w hd
      | error e =>
        rw [hd] at h
        cases e with
        | valueError msg =>
          exact ih tr (fun m t2 ht2 => hall m t2 (by simp [ht2])) r h
        | typeError m => simp_all
        | indexError => simp_all
        | keyError => simp_all
        | attributeError => simp_all
        | noFuel => simp_all

/-- C2 (corrected): the union loop attempts the members in declaration order,
recursively decoding; the first member whose decode does not raise a
`ValueError` wins, a member failing with any other exception class aborts the
whole decode, and when every attempted member fails the whole decode fails.
Decoding `"test"` against `(string | int)` succeeds with `"test"` via the
string member (index 0) — but decoding `42` also succeeds *via the string
member*, because plain-scalar decoding is strict pass-through with no type
check; the resulting value is still `42`. -/
theorem C2_union_first_match_amended :
    (∀ (n : Nat) (ts : List Ty) (val : Value) (b : Bool),
        decodeUnionE n ts val b = (decodeUnionIdx n ts val b).map Prod.snd) ∧
    (∀ (n : Nat) (ts : List Ty) (val : Value) (b : Bool) (i : Nat) (v : Value),
        decodeUnionIdx n ts val b = .ok (i, v) →
          (∃ (h : i < ts.length) (m : Nat),
              decodeFieldE m (ts.get ⟨i, h⟩) val b none = .ok v) ∧
          (∀ j (hj : j < ts.length), j < i →
              ∃ (m : Nat) (msg : String),
                decodeFieldE m (ts.get ⟨j, hj⟩) val b none =
                  .error (.valueError msg))) ∧
    (∀ (ts : List Ty) (val : Value) (b : Bool),
        (∀ (m : Nat) (t : Ty), t ∈ ts → ∀ w, decodeFieldE m t val b none ≠ .ok w) →
          ∀ (n : Nat) (r : Value), decodeUnionE n ts val b ≠ .ok r) ∧
    decodeCoreE 4 (.union [.str, .int]) (.str "test") false = .ok (.str "test") ∧
    decodeCoreE 4 (.union [.str, .int]) (.int 42) false = .ok (.int 42) ∧
    decodeUnionIdx 3 [.str, .int] (.str "test") false = .ok (0, .str "test") ∧
    decodeUnionIdx 3 [.str, .int] (.int 42) false = .ok (0, .int 42) :=
  ⟨fun n => unionE_eq_idx n, fun n => unionIdx_sound n, unionE_exhaust,
   rfl, rfl, rfl, rfl⟩

/-- C2 witness: the general parts applied at the concrete union `(string | int)`
and wire value `42` — the instrumented loop reports the winner, and the winner
is a member that decodes `42` successfully. -/
theorem C2_union_witness :
    decodeUnionE 3 [Ty.str, Ty.int] (Value.int 42) false =
      (decodeUnionIdx 3 [Ty.str, Ty.int] (Value.int 42) false).map Prod.snd ∧
    (∃ (h : 0 < ([Ty.str, Ty.int] : List Ty).length) (m : Nat),
        decodeFieldE m (([Ty.str, Ty.int] : List Ty).get ⟨0, h⟩)
          (Value.int 42) false none = .ok (Value.int 42)) :=
  ⟨C2_union_first_match_amended.1 3 [Ty.str, Ty.int] (Value.int 42) false,
   (C2_union_first_match_amended.2.1 3 [Ty.str, Ty.int] (Value.int 42) false 0
      (Value.int 42) rfl).1⟩

/-- C2 counterexample: decoding the wire value `42` against `(string | int)`
resolves to the member at index 0, which is the *string* member, not the int
member the claim names — plain-scalar decoding never type-checks, so the first
member accepts any non-null value. -/
theorem C2_counterexample :
    decodeUnionIdx 3 [Ty.str, Ty.int] (Value.int 42) false = .ok (0, Value.int 42) ∧
    ([Ty.str, Ty.int] : List Ty)[0]? = some Ty.str ∧ Ty.str ≠ Ty.int :=
  ⟨rfl, rfl, by simp⟩

/-! ## Claim C3: fixed-tuple decoding and arity -/

/-- Spec-side positional decoding: each `(Ti, element i)` pair in order, with
the same fuel discipline as the source loop. -/
def tupleZipSpec : Nat → Bool → List (Ty × Value) → Except PyErr (List Value)
  | 0, _, _ => .error .noFuel
  | _ + 1, _, [] => .ok []
  | n + 1, b, (t, v) :: ps =>
    match decodeFieldE n t v b none with
    | .error e => .error e
    | .ok w =>
      match tupleZipSpec n b ps with
      | .error e => .error e
      | .ok ws => .ok (w :: ws)

theorem decodeTupleE_zip (n : Nat) :
    ∀ (b : Bool) (ts : List Ty) (xs : List Value), xs.length ≤ ts.length →
      decodeTupleE n b ts xs = tupleZipSpec n b (ts.zip xs) := by
  induction n with
  | zero => intro b ts xs _; rfl
  | succ n ih =>
    intro b ts xs hlen
    cases xs with
    | nil => cases ts <;> rfl
    | cons v xr =>
      cases ts with
      | nil => simp at hlen
      | cons t tr =>
        rw [decodeTupleE, List.zip_cons_cons, tupleZipSpec]
        cases decodeFieldE n t v b none with
        | error e => rfl
        | ok w => rw [ih b tr xr (by simpa using hlen)]

theorem decodeTupleE_len (n : Nat) :
    ∀ (b : Bool) (ts : List Ty) (xs ws : List Value),
      decodeTupleE n b ts xs = .ok ws → ws.length = xs.length := by
  induction n with
  | zero => intro b ts xs ws h; exact absurd h (by simp [decodeTupleE])
  | succ n ih =>
    intro b ts xs ws h
    cases xs with
    | nil =>
      rw [decodeTupleE] at h
      simp only [Except.ok.injEq] at h
      subst h; rfl
    | cons v xr =>
      cases ts with
      | nil => rw [decodeTupleE] at h; exact absurd h (by simp)
      | cons t tr =>
        rw [decodeTupleE] at h
        cases hd : decodeFieldE n t v b none with
        | error e => rw [hd] at h; exact absurd h (by simp)
        | ok w =>
          rw [hd] at h
          cases hr : decodeTupleE n b tr xr with
          | error e => rw [hr] at h; exact absurd h (by simp)
          | ok ws' =>
            rw [hr] at h
            simp only [Except.ok.injEq] at h
            subst h
            simpa using ih b tr xr ws' hr

theorem decodeTupleE_overflow (b : Bool) :
    ∀ (ts : List Ty) (xs : List Value), ts.length < xs.length →
      ∀ (n : Nat) (r : List Value), decodeTupleE n b ts xs ≠ .ok r := by
  intro ts xs hlen n
  induction n generalizing ts xs with
  | zero => intro r h; exact absurd h (by simp [decodeTupleE])
  | succ n ih =>
    intro r h
    cases xs with
    | nil => simp at hlen
    | cons v xr =>
      cases ts with
      | nil => rw [decodeTupleE] at h; exact absurd h (by simp)
      | cons t tr =>
        rw [decodeTupleE] at h
        cases hd : decodeFieldE n t v b none with
        | error e => rw [hd] at h; exact absurd h (by simp)
        | ok w =>
          rw [hd] at h
          cases hr : decodeTupleE n b tr xr with
          | error e => rw [hr] at h; exact absurd h (by simp)
          | ok ws' => exact ih tr xr (by simpa using hlen) ws' hr

/-- C3 (corrected): tuple decoding is positional (element `i` against `Ti`),
but the arity check the claim describes does not exist.  A wire sequence of
exactly `n` elements decodes to an `n`-tuple; a *shorter* sequence decodes
without any failure to a truncated tuple (the decoded result always has the
wire sequence's length); a *longer* sequence never succeeds, and once the
declared member types are exhausted the loop fails with `IndexError` — which is
not a `MalformedInputError`(`ValueError`)-class failure, so a union containing
the tuple type aborts instead of trying later members. -/
theorem C3_tuple_arity_amended :
    (∀ (n : Nat) (b : Bool) (ts : List Ty) (xs : List Value),
        xs.length ≤ ts.length →
          decodeTupleE n b ts xs = tupleZipSpec n b (ts.zip xs)) ∧
    (∀ (n : Nat) (b : Bool) (ts : List Ty) (xs ws : List Value),
        decodeTupleE n b ts xs = .ok ws → ws.length = xs.length) ∧
    (∀ (b : Bool) (ts : List Ty) (xs : List Value), ts.length < xs.length →
        ∀ (n : Nat) (r : List Value), decodeTupleE n b ts xs ≠ .ok r) ∧
    decodeCoreE 10 (.tup [.int, .str]) (.list [.int 1, .str "a"]) false =
      .ok (.tup [.int 1, .str "a"]) ∧
    decodeCoreE 10 (.tup [.int]) (.list [.int 1, .int 2]) false =
      .error .indexError ∧
    decodeUnionE 10 [.tup [.int], .str] (.list [.int 1, .int 2]) false =
      .error .indexError ∧
    (∀ msg, (PyErr.indexError) ≠ .valueError msg) :=
  ⟨decodeTupleE_zip, decodeTupleE_len, decodeTupleE_overflow,
   rfl, rfl, rfl, fun _ h => PyErr.noConfusion h⟩

/-- C3 witness: the general parts applied at concrete inputs — a two-element
wire list against a two-type tuple (equal arity, positional), and a one-type
tuple fed two elements (never succeeds). -/
theorem C3_tuple_witness :
    (([Value.int 1, Value.str "a"] : List Value).length ≤
        ([Ty.int, Ty.str] : List Ty).length ∧
      decodeTupleE 9 false [Ty.int, Ty.str] [Value.int 1, Value.str "a"] =
        tupleZipSpec 9 false ([Ty.int, Ty.str].zip [Value.int 1, Value.str "a"])) ∧
    (([Ty.int] : List Ty).length < ([Value.int 1, Value.int 2] : List Value).length ∧
      decodeTupleE 9 false [Ty.int] [Value.int 1, Value.int 2] ≠
        .ok [Value.int 1]) :=
  ⟨⟨by decide,
    C3_tuple_arity_amended.1 9 false [Ty.int, Ty.str]
      [Value.int 1, Value.str "a"] (by decide)⟩,
   ⟨by decide,
    C3_tuple_arity_amended.2.2.1 false [Ty.int] [Value.int 1, Value.int 2]
      (by decide) 9 [Value.int 1]⟩⟩

/-- C3 counterexample: decoding the one-element sequence `[1]` against the
two-type tuple `(int, str)` succeeds with the truncated tuple `(1,)` — no
arity-mismatch failure of any kind is raised, contradicting the claim that a
sequence whose length differs from `n` fails. -/
theorem C3_counterexample :
    decodeCoreE 10 (.tup [.int, .str]) (.list [.int 1]) false =
      .ok (.tup [.int 1]) :=
  rfl

/-! ## Claim C7: missing required fields -/

/-- A field that is required (no default value, no default factory) and whose
resolved wire key is absent from the incoming mapping. -/
def requiredAbsent (raw : Value) (b : Bool) (f : FieldD) : Prop :=
  f.dflt = none ∧ f.factory = none ∧ pyContains raw (fieldKey b f) = .ok false

theorem decodeFields_required_missing (b : Bool) (raw : Value) :
    ∀ (n : Nat) (fs : List FieldD), (∃ f ∈ fs, requiredAbsent raw b f) →
      ∀ vs, decodeFieldsE n raw b fs ≠ .ok vs := by
  intro n
  induction n with
  | zero => intro fs _ vs h; exact absurd h (by simp [decodeFieldsE])
  | succ n ih =>
    rintro fs ⟨g, hg, hreq⟩ vs h
    cases fs with
    | nil => simp at hg
    | cons f fr =>
      rw [decodeFieldsE] at h
      rcases List.mem_cons.mp hg with hgf | hgfr
      · subst hgf
        rw [hreq.2.2, hreq.1, hreq.2.1] at h
        simp at h
      · cases hc : pyContains raw (fieldKey b f) with
        | error e => rw [hc] at h; simp at h
        | ok c =>
          rw [hc] at h
          simp only [] at h
          cases hv : (if c then
                match pyGetItem raw (fieldKey b f) with
                | .error e => .error e
                | .ok rv =>
                  if isNull rv then .ok Value.null
                  else decodeFieldE n f.fty rv b (some f)
              else
                match f.dflt with
                | some dv => .ok dv
                | none =>
                  match f.factory with
                  | some fv => .ok fv
                  | none =>
                    .error (.valueError ("missing field " ++ pyRepr (fieldKey b f)))
              : Except PyErr Value) with
          | error e => rw [hv] at h; simp at h
          | ok v =>
            rw [hv] at h
            cases hr : decodeFieldsE n raw b fr with
            | error e => rw [hr] at h; simp at h
            | ok vs' => exact ih fr ⟨g, hgfr, hreq⟩ vs' hr

theorem decodeFields_missing_first (b : Bool) (raw : Value) (f : FieldD)
    (fr : List FieldD) (n : Nat) (hreq : requiredAbsent raw b f) :
    decodeFieldsE (n + 1) raw b (f :: fr) =
      .error (.valueError ("missing field " ++ pyRepr (fieldKey b f))) := by
  rw [decodeFieldsE, hreq.2.2, hreq.1, hreq.2.1]
  rfl

/-- The `SimpleClass` record type of the spec's example:
`{name: string, age: int}` with no defaults. -/
def SimpleClassD : DataClass :=
  .mk "SimpleClass" [.mk "name" .str none none none none none,
                     .mk "age" .int none none none none none]

/-- C7 (confirmed): a wire mapping lacking the resolved key of a field with
neither default value nor default factory never decodes successfully; when the
loop reaches such a field first, it fails with `ValueError` whose message names
the resolved wire key (`missing field 'key'`); and on the spec's example,
decoding `{"name": "Alice"}` against `{name: string, age: int}` fails with
`missing field 'age'` — a message mentioning `"age"` — which `from_dict` then
wraps in a `CodecError` carrying that cause. -/
theorem C7_missing_field :
    (∀ (b : Bool) (raw : Value) (n : Nat) (fs : List FieldD),
        (∃ f ∈ fs, requiredAbsent raw b f) →
          ∀ vs, decodeFieldsE n raw b fs ≠ .ok vs) ∧
    (∀ (b : Bool) (raw : Value) (f : FieldD) (fr : List FieldD) (n : Nat),
        requiredAbsent raw b f →
          decodeFieldsE (n + 1) raw b (f :: fr) =
            .error (.valueError ("missing field " ++ pyRepr (fieldKey b f)))) ∧
    decodeDataclassE 9 SimpleClassD (.dict [("name", .str "Alice")]) false =
      .error (.valueError ("missing field " ++ pyRepr "age")) ∧
    strContains ("missing field " ++ pyRepr "age") "age" = true ∧
    fromDictE 9 false false (some SimpleClassD) (.dict [("name", .str "Alice")]) =
      .error (.codecError (some (.valueError ("missing field " ++ pyRepr "age")))) :=
  ⟨decodeFields_required_missing, fun b raw f fr n h =>
     decodeFields_missing_first b raw f fr n h, rfl, by decide, rfl⟩

/-- C7 witness: both general parts applied to the concrete example class and
mapping — the `age` field is required and absent, so the decode cannot succeed
and, processed first, yields exactly the named missing-field error. -/
theorem C7_missing_field_witness :
    requiredAbsent (.dict [("name", .str "Alice")]) false
      (.mk "age" .int none none none none none) ∧
    decodeFieldsE 9 (.dict [("name", .str "Alice")]) false
      [.mk "age" .int none none none none none] ≠ .ok [] ∧
    decodeFieldsE 9 (.dict [("name", .str "Alice")]) false
      [.mk "age" .int none none none none none] =
      .error (.valueError ("missing field " ++ pyRepr "age")) :=
  ⟨⟨rfl, rfl, rfl⟩,
   C7_missing_field.1 false (.dict [("name", .str "Alice")]) 9
     [.mk "age" .int none none none none none]
     ⟨.mk "age" .int none none none none none, by simp, rfl, rfl, rfl⟩ [],
   C7_missing_field.2.1 false (.dict [("name", .str "Alice")])
     (.mk "age" .int none none none none none) [] 8 ⟨rfl, rfl, rfl⟩⟩

/-! ## Claim C8: null handling versus custom decoders -/

theorem lookup_any_eq_true {es : List (String × Value)} {k : String} {v : Value}
    (h : es.lookup k = some v) : es.any (fun e => e.1 == k) = true := by
  induction es with
  | nil => simp [List.lookup] at h
  | cons e er ih =>
    obtain ⟨k', v'⟩ := e
    rw [List.lookup] at h
    cases hk : k == k' with
    | true =>
      have hkk : k = k' := by simpa using hk
      subst hkk
      simp [List.any_cons]
    | false =>
      rw [hk] at h
      simp only [List.any_cons, ih h, Bool.or_true]

/-- `_decode_field` never applies a deserializer hook to a null value: with a
null input the wrapper proceeds to type dispatch exactly as if no field object
were supplied. -/
theorem decodeFieldE_null_bypass (n : Nat) (ty : Ty) (b : Bool) (f : FieldD) :
    decodeFieldE (n + 1) ty .null b (some f) = decodeCoreE n ty .null b ∧
      decodeFieldE (n + 1) ty .null b none = decodeCoreE n ty .null b := by
  constructor
  · rw [decodeFieldE]
    cases f.deser with
    | some h => rfl
    | none => rfl
  · rfl

/-- One step of the field loop when the field's key is present with a null
value: null is assigned directly, with no call to `_decode_field`. -/
theorem decodeFields_cons_present_null (m : Nat) (raw : Value) (b : Bool)
    (f : FieldD) (fr : List FieldD)
    (hc : pyContains raw (fieldKey b f) = .ok true)
    (hg : pyGetItem raw (fieldKey b f) = .ok .null) :
    decodeFieldsE (m + 1) raw b (f :: fr) =
      match decodeFieldsE m raw b fr with
      | .ok vs => .ok (Value.null :: vs)
      | .error e => .error e := by
  rw [decodeFieldsE, hc, hg]
  cases decodeFieldsE m raw b fr <;> rfl

/-- The field loop of `_decode_dataclass` assigns a null wire value directly —
for any declared type and any custom decoder — without calling `_decode_field`
at all. -/
theorem decodeFields_null_direct (n : Nat) (b : Bool) (nm : String) (f : FieldD)
    (es : List (String × Value)) (h : es.lookup (fieldKey b f) = some .null) :
    decodeDataclassE (n + 3) (.mk nm [f]) (.dict es) b =
      .ok (.inst (.mk nm [f]) [.null]) := by
  have key := decodeFields_cons_present_null (n + 1) (.dict es) b f []
      (by simp [pyContains, lookup_any_eq_true h]) (by simp [pyGetItem, h])
  rw [decodeDataclassE]
  simp only [DataClass.fieldsList, show (n + 2 : Nat) = (n + 1) + 1 from rfl, key]
  rfl

/-- The field used in the C8 example: declared `int`, with a custom
deserializer that would return `99` for any input. -/
def C8field : FieldD := .mk "x" .int none none none none (some (Hook.constInt 99))

/-- The one-field record type of the C8 example. -/
def C8class : DataClass := .mk "N" [C8field]

/-- C8 (corrected): a null wire value for a present field is assigned directly
*unconditionally* — whether or not the descriptor carries a custom decoder —
and null values always bypass custom decoders and any further recursive type
dispatch.  The claim's first conjunct ("directly only if the custom decoder is
unset") is refuted by `C8_counterexample`; the always-bypass conjunct holds. -/
theorem C8_null_bypass_amended :
    (∀ (n : Nat) (ty : Ty) (b : Bool) (f : FieldD),
        decodeFieldE (n + 1) ty .null b (some f) = decodeCoreE n ty .null b ∧
          decodeFieldE (n + 1) ty .null b none = decodeCoreE n ty .null b) ∧
    (∀ (n : Nat) (b : Bool) (nm : String) (f : FieldD)
        (es : List (String × Value)),
        es.lookup (fieldKey b f) = some .null →
          decodeDataclassE (n + 3) (.mk nm [f]) (.dict es) b =
            .ok (.inst (.mk nm [f]) [.null])) :=
  ⟨decodeFieldE_null_bypass, decodeFields_null_direct⟩

/-- C8 witness: the general parts at the concrete example field — a field of
type `int` with a constant-`99` deserializer still receives `null` directly. -/
theorem C8_null_bypass_witness :
    decodeFieldE 5 .int .null false (some C8field) = decodeCoreE 4 .int .null false ∧
    ([("x", Value.null)] : List (String × Value)).lookup (fieldKey false C8field) =
      some .null ∧
    decodeDataclassE 4 C8class (.dict [("x", Value.null)]) false =
      .ok (.inst C8class [.null]) :=
  ⟨(C8_null_bypass_amended.1 4 .int false C8field).1, rfl,
   C8_null_bypass_amended.2 1 false "N" C8field [("x", Value.null)] rfl⟩

/-- C8 counterexample: the field's custom decoder is *set* (and would turn any
input into `99`), yet the decoder assigns null directly — contradicting the
claim that null is assigned directly only if the custom decoder is unset. -/
theorem C8_counterexample :
    decodeDataclassE 4 C8class (.dict [("x", Value.null)]) false =
      .ok (.inst C8class [.null]) ∧
    C8field.deser = some (Hook.constInt 99) ∧
    runHook (Hook.constInt 99) .null = .ok (.int 99) ∧
    Value.null ≠ Value.int 99 :=
  ⟨rfl, rfl, rfl, by simp⟩

/-! ## Claim C10: unknown wire keys are ignored -/

theorem any_eq_lookup_isSome (k : String) :
    ∀ (es : List (String × Value)),
      es.any (fun e => e.1 == k) = (es.lookup k).isSome := by
  intro es
  induction es with
  | nil => rfl
  | cons e er ih =>
    obtain ⟨k', v'⟩ := e
    rw [List.any_cons, List.lookup, ih]
    by_cases hk : k = k'
    · subst hk; simp
    · rw [show (k == k') = false from by simpa using hk,
        show (k' == k) = false from by simp [Ne.symm hk]]
      simp

/-- `_decode_dataclass` consults the incoming mapping only at the resolved wire
keys of the target's fields: two mappings agreeing there decode identically. -/
theorem decodeFields_ext (b : Bool) :
    ∀ (n : Nat) (fs : List FieldD) (es1 es2 : List (String × Value)),
      (∀ f ∈ fs, es1.lookup (fieldKey b f) = es2.lookup (fieldKey b f)) →
        decodeFieldsE n (.dict es1) b fs = decodeFieldsE n (.dict es2) b fs := by
  intro n
  induction n with
  | zero => intro fs es1 es2 _; rfl
  | succ n ih =>
    intro fs es1 es2 hagree
    cases fs with
    | nil => rfl
    | cons f fr =>
      have hk := hagree f (List.mem_cons_self f fr)
      have htail : ∀ g ∈ fr, es1.lookup (fieldKey b g) = es2.lookup (fieldKey b g) :=
        fun g hg => hagree g (List.mem_cons_of_mem f hg)
      have hany : es1.any (fun e => e.1 == fieldKey b f) =
          es2.any (fun e => e.1 == fieldKey b f) := by
        rw [any_eq_lookup_isSome, any_eq_lookup_isSome, hk]
      rw [decodeFieldsE, decodeFieldsE]
      simp only [pyContains, pyGetItem]
      rw [hany, hk, ih fr es1 es2 htail]

theorem decodeDataclass_ext (b : Bool) (n : Nat) (d : DataClass)
    (es1 es2 : List (String × Value))
    (hagree : ∀ f ∈ d.fieldsList,
        es1.lookup (fieldKey b f) = es2.lookup (fieldKey b f)) :
    decodeDataclassE n d (.dict es1) b = decodeDataclassE n d (.dict es2) b := by
  cases n with
  | zero => rfl
  | succ n => rw [decodeDataclassE, decodeDataclassE, decodeFields_ext b n _ _ _ hagree]

/-- Dropping a binding whose key no field resolves to does not change the
decode result. -/
theorem decodeDataclass_drop_unknown (b : Bool) (n : Nat) (d : DataClass)
    (es : List (String × Value)) (k : String) (v : Value)
    (hk : ∀ f ∈ d.fieldsList, fieldKey b f ≠ k) :
    decodeDataclassE n d (.dict ((k, v) :: es)) b =
      decodeDataclassE n d (.dict es) b := by
  refine decodeDataclass_ext b n d _ _ (fun f hf => ?_)
  rw [List.lookup, show (fieldKey b f == k) = false from by simpa using hk f hf]

/-- C10 (confirmed): wire keys that no field descriptor resolves to are
ignored — the decoder reads the mapping only at resolved field keys, so extra
unknown keys never cause a failure and have no effect on the constructed
instance, as the concrete example shows. -/
theorem C10_unknown_keys_ignored :
    (∀ (b : Bool) (n : Nat) (d : DataClass) (es1 es2 : List (String × Value)),
        (∀ f ∈ d.fieldsList,
            es1.lookup (fieldKey b f) = es2.lookup (fieldKey b f)) →
          decodeDataclassE n d (.dict es1) b = decodeDataclassE n d (.dict es2) b) ∧
    (∀ (b : Bool) (n : Nat) (d : DataClass) (es : List (String × Value))
        (k : String) (v : Value),
        (∀ f ∈ d.fieldsList, fieldKey b f ≠ k) →
          decodeDataclassE n d (.dict ((k, v) :: es)) b =
            decodeDataclassE n d (.dict es) b) ∧
    decodeDataclassE 9 SimpleClassD
        (.dict [("name", .str "Alice"), ("age", .int 30), ("extra", .str "zzz")])
        false = .ok (.inst SimpleClassD [.str "Alice", .int 30]) ∧
    decodeDataclassE 9 SimpleClassD
        (.dict [("name", .str "Alice"), ("age", .int 30)]) false =
      .ok (.inst SimpleClassD [.str "Alice", .int 30]) :=
  ⟨decodeDataclass_ext, decodeDataclass_drop_unknown, rfl, rfl⟩

/-- C10 witness: dropping the unknown key `"extra"` leaves the decode of the
example mapping unchanged (the unknown binding is placed first so the general
theorem applies literally). -/
theorem C10_unknown_keys_witness :
    decodeDataclassE 9 SimpleClassD
        (.dict [("extra", .str "zzz"), ("name", .str "Alice"), ("age", .int 30)])
        false =
      decodeDataclassE 9 SimpleClassD
        (.dict [("name", .str "Alice"), ("age", .int 30)]) false :=
  C10_unknown_keys_ignored.2.1 false 9 SimpleClassD
    [("name", .str "Alice"), ("age", .int 30)] "extra" (.str "zzz")
    (by intro f hf
        simp only [SimpleClassD, DataClass.fieldsList, List.mem_cons,
          List.not_mem_nil, or_false] at hf
        rcases hf with h | h <;> (subst h; decide))

/-! ## Claim C6: the wire-name override -/

theorem getJsonFieldName_override (f : FieldD) (w : String)
    (hw : f.jsonName = some w) (fieldName : String) (b : Bool) :
    getJsonFieldName (some f) fieldName b = w := by
  simp [getJsonFieldName, hw]

theorem fieldKey_override (f : FieldD) (w : String) (hw : f.jsonName = some w)
    (b : Bool) : fieldKey b f = w :=
  getJsonFieldName_override f w hw f.fname b

/-- If encoding a one-field instance succeeds, the single emitted wire key is
exactly the override — for either value of the convention flag. -/
theorem encode_onefield_key (n : Nat) (b : Bool) (nm : String) (f : FieldD)
    (w : String) (v : Value) (hw : f.jsonName = some w)
    (hv : isMissing v = false) :
    ∀ r, encodeValE (n + 2) b (.inst (.mk nm [f]) [v]) = .ok r →
      ∃ wv, r = .dict [(w, wv)] := by
  intro r hr
  rw [show (n + 2 : Nat) = (n + 1) + 1 from rfl, encodeValE] at hr
  simp only [DataClass.fieldsList] at hr
  rw [encodeFieldsE, hv] at hr
  simp only [Bool.false_eq_true, if_false] at hr
  cases hs : (match f.ser with
              | some h => if isNull v then .ok v else runHook h v
              | none => .ok v : Except PyErr Value) with
  | error e => rw [hs] at hr; simp at hr
  | ok v1 =>
    rw [hs] at hr
    simp only [] at hr
    cases he : encodeValE n b v1 with
    | error e => rw [he] at hr; simp at hr
    | ok wv =>
      rw [he] at hr
      simp only [] at hr
      cases n with
      | zero => simp [encodeFieldsE] at hr
      | succ m =>
        rw [encodeFieldsE] at hr
        simp only [Except.ok.injEq] at hr
        refine ⟨wv, ?_⟩
        rw [← hr, dictAssign, fieldKey_override f w hw]
        simp

/-- The decoder of a one-field class with an override consults the incoming
mapping exactly at the override key, for either flag value. -/
theorem decode_onefield_key (n : Nat) (b : Bool) (nm : String) (f : FieldD)
    (w : String) (hw : f.jsonName = some w) (es1 es2 : List (String × Value))
    (hes : es1.lookup w = es2.lookup w) :
    decodeDataclassE n (.mk nm [f]) (.dict es1) b =
      decodeDataclassE n (.mk nm [f]) (.dict es2) b := by
  refine decodeDataclass_ext b n _ _ _ (fun g hg => ?_)
  simp only [DataClass.fieldsList, List.mem_cons, List.not_mem_nil, or_false] at hg
  subst hg
  rw [fieldKey_override g w hw]
  exact hes

/-- The `ClassWithCustomFields` record type of the repository's tests:
`user_name` with wire name `"username"`, `user_age` with wire name `"age"`. -/
def CustomFieldsD : DataClass :=
  .mk "ClassWithCustomFields"
    [.mk "user_name" .str none none (some "username") none none,
     .mk "user_age" .int none none (some "age") none none]

/-- C6 (confirmed): a `wire_name_override` always wins, in both directions and
independently of the convention flags: the resolver returns the override
string for any field name and either flag; an encoded one-field instance emits
exactly the override as its wire key; the decoder of such a class reads the
incoming mapping only at the override key; and the tests' two-override class
encodes and decodes under the camel-case flag with the override keys
untouched. -/
theorem C6_wire_name_override :
    (∀ (f : FieldD) (w : String), f.jsonName = some w →
        ∀ (fieldName : String) (b : Bool),
          getJsonFieldName (some f) fieldName b = w) ∧
    (∀ (n : Nat) (b : Bool) (nm : String) (f : FieldD) (w : String) (v : Value),
        f.jsonName = some w → isMissing v = false →
          ∀ r, encodeValE (n + 2) b (.inst (.mk nm [f]) [v]) = .ok r →
            ∃ wv, r = .dict [(w, wv)]) ∧
    (∀ (n : Nat) (b : Bool) (nm : String) (f : FieldD) (w : String),
        f.jsonName = some w →
          ∀ (es1 es2 : List (String × Value)), es1.lookup w = es2.lookup w →
            decodeDataclassE n (.mk nm [f]) (.dict es1) b =
              decodeDataclassE n (.mk nm [f]) (.dict es2) b) ∧
    encodeValE 9 true (.inst CustomFieldsD [.str "Alice", .int 30]) =
      .ok (.dict [("username", .str "Alice"), ("age", .int 30)]) ∧
    encodeValE 9 false (.inst CustomFieldsD [.str "Alice", .int 30]) =
      .ok (.dict [("username", .str "Alice"), ("age", .int 30)]) ∧
    decodeDataclassE 9 CustomFieldsD
        (.dict [("username", .str "Alice"), ("age", .int 30)]) true =
      .ok (.inst CustomFieldsD [.str "Alice", .int 30]) ∧
    decodeDataclassE 9 CustomFieldsD
        (.dict [("username", .str "Alice"), ("age", .int 30)]) false =
      .ok (.inst CustomFieldsD [.str "Alice", .int 30]) :=
  ⟨fun f w hw fieldName b => getJsonFieldName_override f w hw fieldName b,
   fun n b nm f w v hw hv => encode_onefield_key n b nm f w v hw hv,
   fun n b nm f w hw es1 es2 hes => decode_onefield_key n b nm f w hw es1 es2 hes,
   rfl, rfl, rfl, rfl⟩

/-- C6 witness: the general parts at a concrete override field (`user_name`
with wire name `"username"`), under the convention flag switched on. -/
theorem C6_wire_name_witness :
    getJsonFieldName (some (.mk "user_name" .str none none (some "username") none none))
      "user_name" true = "username" ∧
    (∃ wv, Value.dict [("username", .str "Alice")] = Value.dict [("username", wv)]) ∧
    decodeDataclassE 9 (.mk "W" [.mk "user_name" .str none none (some "username") none none])
        (.dict [("username", .str "A"), ("zzz", .int 1)]) true =
      decodeDataclassE 9 (.mk "W" [.mk "user_name" .str none none (some "username") none none])
        (.dict [("username", .str "A")]) true :=
  ⟨C6_wire_name_override.1
     (.mk "user_name" .str none none (some "username") none none) "username" rfl
     "user_name" true,
   C6_wire_name_override.2.1 7 true "W"
     (.mk "user_name" .str none none (some "username") none none) "username"
     (.str "Alice") rfl rfl (.dict [("username", .str "Alice")]) rfl,
   C6_wire_name_override.2.2.1 9 true "W"
     (.mk "user_name" .str none none (some "username") none none) "username" rfl
     [("username", .str "A"), ("zzz", .int 1)] [("username", .str "A")] rfl⟩

/-! ## Claim C9: the `CodecError` failure boundary -/

theorem toDict_no_uncaught (n : Nat) (sc cc : Bool) (obj : Value) (e : PyErr) :
    toDictE n sc cc obj ≠ .error (.uncaught e) := by
  unfold toDictE
  cases isDataclassV obj with
  | false => simp
  | true =>
    simp only [if_true]
    cases encodeValE n (sc || cc) obj <;> simp

theorem toDict_wraps (n : Nat) (sc cc : Bool) (obj : Value) (e : PyErr)
    (hd : isDataclassV obj = true) (he : encodeValE n (sc || cc) obj = .error e) :
    toDictE n sc cc obj = .error (.codecError (some e)) := by
  unfold toDictE
  rw [hd, he]
  simp

theorem toDict_ok (n : Nat) (sc cc : Bool) (obj w : Value)
    (h : toDictE n sc cc obj = .ok w) : encodeValE n (sc || cc) obj = .ok w := by
  unfold toDictE at h
  cases hI : isDataclassV obj with
  | false => rw [hI] at h; simp at h
  | true =>
    rw [hI] at h
    simp only [if_true] at h
    cases hE : encodeValE n (sc || cc) obj with
    | ok w2 => rw [hE] at h; simpa using h
    | error e => rw [hE] at h; simp at h

theorem fromDict_no_uncaught (n : Nat) (sc ts : Bool) (cls : Option DataClass)
    (data : Value) (e : PyErr) :
    fromDictE n sc ts cls data ≠ .error (.uncaught e) := by
  unfold fromDictE
  cases cls with
  | none => simp
  | some d =>
    simp only []
    cases decodeDataclassE n d data (sc || ts) <;> simp

theorem fromDict_wraps (n : Nat) (sc ts : Bool) (d : DataClass) (data : Value)
    (e : PyErr) (he : decodeDataclassE n d data (sc || ts) = .error e) :
    fromDictE n sc ts (some d) data = .error (.codecError (some e)) := by
  unfold fromDictE
  simp only []
  rw [he]

theorem fromDict_ok (n : Nat) (sc ts : Bool) (d : DataClass) (data r : Value)
    (h : fromDictE n sc ts (some d) data = .ok r) :
    decodeDataclassE n d data (sc || ts) = .ok r := by
  unfold fromDictE at h
  simp only [] at h
  cases hE : decodeDataclassE n d data (sc || ts) with
  | ok r2 => rw [hE] at h; simpa using h
  | error e => rw [hE] at h; simp at h

/-- C9 (confirmed, `CodecError` modelled from the spec): every failure of the
`to_dict` / `from_dict` entry points — internal decode/encode exceptions of any
class, and the entry-level not-a-dataclass rejections — surfaces as a single
`CodecError`; an internal failure is wrapped carrying the original cause; no
other exception kind ever escapes; and a successful entry-point call returns
exactly the full engine result (no partial tree or instance: the engine result
is a single complete value by construction of the model). -/
theorem C9_codec_error_boundary :
    (∀ (n : Nat) (sc cc : Bool) (obj : Value) (e : PyErr),
        toDictE n sc cc obj ≠ .error (.uncaught e)) ∧
    (∀ (n : Nat) (sc cc : Bool) (obj : Value) (e : PyErr),
        isDataclassV obj = true → encodeValE n (sc || cc) obj = .error e →
          toDictE n sc cc obj = .error (.codecError (some e))) ∧
    (∀ (n : Nat) (sc cc : Bool) (obj : Value), isDataclassV obj = false →
        toDictE n sc cc obj = .error (.codecError none)) ∧
    (∀ (n : Nat) (sc cc : Bool) (obj w : Value),
        toDictE n sc cc obj = .ok w → encodeValE n (sc || cc) obj = .ok w) ∧
    (∀ (n : Nat) (sc ts : Bool) (cls : Option DataClass) (data : Value) (e : PyErr),
        fromDictE n sc ts cls data ≠ .error (.uncaught e)) ∧
    (∀ (n : Nat) (sc ts : Bool) (d : DataClass) (data : Value) (e : PyErr),
        decodeDataclassE n d data (sc || ts) = .error e →
          fromDictE n sc ts (some d) data = .error (.codecError (some e))) ∧
    (∀ (n : Nat) (sc ts : Bool) (data : Value),
        fromDictE n sc ts none data = .error (.codecError none)) ∧
    (∀ (n : Nat) (sc ts : Bool) (d : DataClass) (data r : Value),
        fromDictE n sc ts (some d) data = .ok r →
          decodeDataclassE n d data (sc || ts) = .ok r) :=
  ⟨toDict_no_uncaught, toDict_wraps,
   fun n sc cc obj h => by unfold toDictE; rw [h]; simp,
   toDict_ok, fromDict_no_uncaught, fromDict_wraps, fun n sc ts data => rfl,
   fromDict_ok⟩

/-- C9 witness: the boundary applied to concrete runs — a missing-field
`ValueError` inside the engine surfaces as `CodecError` carrying exactly that
cause, and a non-dataclass encode input is rejected as a bare `CodecError`. -/
theorem C9_codec_error_witness :
    fromDictE 9 false false (some SimpleClassD) (.dict [("name", .str "Alice")]) =
      .error (.codecError (some (.valueError ("missing field " ++ pyRepr "age")))) ∧
    toDictE 5 false false (.int 3) = .error (.codecError none) ∧
    toDictE 5 false false (.inst SimpleClassD [.str "A", .int 1]) ≠
      .error (.uncaught .keyError) :=
  ⟨C9_codec_error_boundary.2.2.2.2.2.1 9 false false SimpleClassD
     (.dict [("name", .str "Alice")])
     (.valueError ("missing field " ++ pyRepr "age")) rfl,
   C9_codec_error_boundary.2.2.1 5 false false (.int 3) rfl,
   C9_codec_error_boundary.1 5 false false (.inst SimpleClassD [.str "A", .int 1])
     .keyError⟩

/-! ## One-step evaluation lemmas (all definitional) -/

theorem encodeValE_inst (n : Nat) (b : Bool) (d : DataClass) (vals : List Value) :
    encodeValE (n + 1) b (.inst d vals) =
      match encodeFieldsE n b d.fieldsList vals [] with
      | .ok es => .ok (.dict es)
      | .error e => .error e := rfl

theorem encodeValE_list (n : Nat) (b : Bool) (xs : List Value) :
    encodeValE (n + 1) b (.list xs) =
      match encodeListE n b xs with
      | .ok ws => .ok (.list ws)
      | .error e => .error e := rfl

theorem encodeValE_tup (n : Nat) (b : Bool) (xs : List Value) :
    encodeValE (n + 1) b (.tup xs) =
      match encodeListE n b xs with
      | .ok ws => .ok (.list ws)
      | .error e => .error e := rfl

theorem encodeValE_dict (n : Nat) (b : Bool) (es : List (String × Value)) :
    encodeValE (n + 1) b (.dict es) =
      match encodeEntriesE n b es [] with
      | .ok fs => .ok (.dict fs)
      | .error e => .error e := rfl

theorem encodeFieldsE_cons (n : Nat) (b : Bool) (f : FieldD) (fr : List FieldD)
    (v : Value) (vr : List Value) (acc : List (String × Value)) :
    encodeFieldsE (n + 1) b (f :: fr) (v :: vr) acc =
      if isMissing v then encodeFieldsE n b fr vr acc
      else
        match (match f.ser with
               | some h => if isNull v then .ok v else runHook h v
               | none => .ok v : Except PyErr Value) with
        | .error e => .error e
        | .ok v1 =>
          match encodeValE n b v1 with
          | .error e => .error e
          | .ok w => encodeFieldsE n b fr vr (dictAssign acc (fieldKey b f) w) := rfl

theorem encodeListE_cons (n : Nat) (b : Bool) (x : Value) (xs : List Value) :
    encodeListE (n + 1) b (x :: xs) =
      match encodeValE n b x with
      | .error e => .error e
      | .ok w =>
        match encodeListE n b xs with
        | .error e => .error e
        | .ok ws => .ok (w :: ws) := rfl

theorem encodeEntriesE_cons (n : Nat) (b : Bool) (k : String) (v : Value)
    (er : List (String × Value)) (acc : List (String × Value)) :
    encodeEntriesE (n + 1) b ((k, v) :: er) acc =
      match encodeValE n b v with
      | .error e => .error e
      | .ok w =>
        encodeEntriesE n b er (dictAssign acc (if b then snake_to_camel k else k) w) := rfl

theorem decodeFieldE_succ (n : Nat) (ty : Ty) (val : Value) (b : Bool)
    (fo : Option FieldD) :
    decodeFieldE (n + 1) ty val b fo =
      match fo with
      | some f =>
        match f.deser with
        | some h => if isNull val then decodeCoreE n ty val b else runHook h val
        | none => decodeCoreE n ty val b
      | none => decodeCoreE n ty val b := rfl

theorem decodeCoreE_dc (n : Nat) (d : DataClass) (val : Value) (b : Bool) :
    decodeCoreE (n + 1) (.dc d) val b = decodeDataclassE n d val b := rfl

theorem decodeCoreE_tup (n : Nat) (ts : List Ty) (val : Value) (b : Bool) :
    decodeCoreE (n + 1) (.tup ts) val b =
      match pyIter val with
      | .error e => .error e
      | .ok xs =>
        match decodeTupleE n b ts xs with
        | .ok ws => .ok (.tup ws)
        | .error e => .error e := rfl

theorem decodeCoreE_list (n : Nat) (t : Ty) (val : Value) (b : Bool) :
    decodeCoreE (n + 1) (.list t) val b =
      match pyIter val with
      | .error e => .error e
      | .ok xs =>
        match decodeListE n b t xs with
        | .ok ws => .ok (.list ws)
        | .error e => .error e := rfl

theorem decodeCoreE_union (n : Nat) (ts : List Ty) (val : Value) (b : Bool) :
    decodeCoreE (n + 1) (.union ts) val b = decodeUnionE n ts val b := rfl

theorem decodeDataclassE_succ (n : Nat) (d : DataClass) (raw : Value) (b : Bool) :
    decodeDataclassE (n + 1) d raw b =
      match decodeFieldsE n raw b d.fieldsList with
      | .ok vals => .ok (.inst d vals)
      | .error e => .error e := rfl

theorem decodeFieldsE_cons (n : Nat) (raw : Value) (b : Bool) (f : FieldD)
    (fr : List FieldD) :
    decodeFieldsE (n + 1) raw b (f :: fr) =
      match pyContains raw (fieldKey b f) with
      | .error e => .error e
      | .ok c =>
        match (if c then
                 match pyGetItem raw (fieldKey b f) with
                 | .error e => .error e
                 | .ok rv =>
                   if isNull rv then .ok Value.null
                   else decodeFieldE n f.fty rv b (some f)
               else
                 match f.dflt with
                 | some dv => .ok dv
                 | none =>
                   match f.factory with
                   | some fv => .ok fv
                   | none =>
                     .error (.valueError ("missing field " ++ pyRepr (fieldKey b f)))
               : Except PyErr Value) with
        | .error e => .error e
        | .ok v =>
          match decodeFieldsE n raw b fr with
          | .error e => .error e
          | .ok vs => .ok (v :: vs) := rfl

theorem decodeTupleE_cons (n : Nat) (b : Bool) (ts : List Ty) (v : Value)
    (xr : List Value) :
    decodeTupleE (n + 1) b ts (v :: xr) =
      match ts with
      | [] => .error .indexError
      | t :: tr =>
        match decodeFieldE n t v b none with
        | .error e => .error e
        | .ok w =>
          match decodeTupleE n b tr xr with
          | .error e => .error e
          | .ok ws => .ok (w :: ws) := rfl

theorem decodeListE_cons (n : Nat) (b : Bool) (t : Ty) (v : Value)
    (xr : List Value) :
    decodeListE (n + 1) b t (v :: xr) =
      match decodeFieldE n t v b none with
      | .error e => .error e
      | .ok w =>
        match decodeListE n b t xr with
        | .error e => .error e
        | .ok ws => .ok (w :: ws) := rfl

theorem decodeUnionE_cons (n : Nat) (t : Ty) (tr : List Ty) (val : Value)
    (b : Bool) :
    decodeUnionE (n + 1) (t :: tr) val b =
      match decodeFieldE n t val b none with
      | .ok v => .ok v
      | .error (.valueError _) => decodeUnionE n tr val b
      | .error e => .error e := rfl

/-! ## Fuel monotonicity

A run that did not exhaust its fuel returns the same result for any larger
fuel.  Proved for all eleven mutually recursive functions at once. -/

/-- A result that is not the fuel-exhaustion artifact. -/
def nf {α : Type} (r : Except PyErr α) : Prop := r ≠ .error .noFuel

theorem nf_ok {α : Type} (a : α) : nf (.ok a : Except PyErr α) := by
  intro c; exact Except.noConfusion c

theorem nf_err {α : Type} {e : PyErr} (h : e ≠ .noFuel) :
    nf (.error e : Except PyErr α) := by
  intro c
  apply h
  injection c

theorem monoAll : ∀ (n m : Nat), n ≤ m →
    (∀ b v, nf (encodeValE n b v) → encodeValE m b v = encodeValE n b v) ∧
    (∀ b fs vs acc, nf (encodeFieldsE n b fs vs acc) →
        encodeFieldsE m b fs vs acc = encodeFieldsE n b fs vs acc) ∧
    (∀ b xs, nf (encodeListE n b xs) → encodeListE m b xs = encodeListE n b xs) ∧
    (∀ b es acc, nf (encodeEntriesE n b es acc) →
        encodeEntriesE m b es acc = encodeEntriesE n b es acc) ∧
    (∀ ty val b fo, nf (decodeFieldE n ty val b fo) →
        decodeFieldE m ty val b fo = decodeFieldE n ty val b fo) ∧
    (∀ ty val b, nf (decodeCoreE n ty val b) →
        decodeCoreE m ty val b = decodeCoreE n ty val b) ∧
    (∀ d raw b, nf (decodeDataclassE n d raw b) →
        decodeDataclassE m d raw b = decodeDataclassE n d raw b) ∧
    (∀ raw b fs, nf (decodeFieldsE n raw b fs) →
        decodeFieldsE m raw b fs = decodeFieldsE n raw b fs) ∧
    (∀ b ts xs, nf (decodeTupleE n b ts xs) →
        decodeTupleE m b ts xs = decodeTupleE n b ts xs) ∧
    (∀ b t xs, nf (decodeListE n b t xs) →
        decodeListE m b t xs = decodeListE n b t xs) ∧
    (∀ ts val b, nf (decodeUnionE n ts val b) →
        decodeUnionE m ts val b = decodeUnionE n ts val b) := by
  intro n
  induction n with
  | zero =>
    intro m _
    refine ⟨?_, ?_, ?_, ?_, ?_, ?_, ?_, ?_, ?_, ?_, ?_⟩ <;>
      (intros; exact absurd rfl (by assumption))
  | succ n ih =>
    intro m hm
    cases m with
    | zero => omega
    | succ m' =>
    have hm' : n ≤ m' := by omega
    obtain ⟨ihEV, ihEF, ihEL, ihEE, ihDF, ihDC, ihDD, ihDFs, ihDT, ihDL, ihDU⟩ :=
      ih m' hm'
    have stepEV : ∀ b v, nf (encodeValE (n + 1) b v) →
        encodeValE (m' + 1) b v = encodeValE (n + 1) b v := by
      intro b v hnf
      cases v with
      | inst d vals =>
        rw [encodeValE_inst, encodeValE_inst]
        rw [encodeValE_inst] at hnf
        cases hE : encodeFieldsE n b d.fieldsList vals [] with
        | error e =>
          rw [ihEF b d.fieldsList vals []
            (by rw [hE]; rw [hE] at hnf; exact nf_err fun c => hnf (by rw [c])), hE]
        | ok es =>
          rw [ihEF b d.fieldsList vals [] (by rw [hE]; exact nf_ok es), hE]
      | list xs =>
        rw [encodeValE_list, encodeValE_list]
        rw [encodeValE_list] at hnf
        cases hE : encodeListE n b xs with
        | error e =>
          rw [ihEL b xs
            (by rw [hE]; rw [hE] at hnf; exact nf_err fun c => hnf (by rw [c])), hE]
        | ok ws => rw [ihEL b xs (by rw [hE]; exact nf_ok ws), hE]
      | tup xs =>
        rw [encodeValE_tup, encodeValE_tup]
        rw [encodeValE_tup] at hnf
        cases hE : encodeListE n b xs with
        | error e =>
          rw [ihEL b xs
            (by rw [hE]; rw [hE] at hnf; exact nf_err fun c => hnf (by rw [c])), hE]
        | ok ws => rw [ihEL b xs (by rw [hE]; exact nf_ok ws), hE]
      | dict es =>
        rw [encodeValE_dict, encodeValE_dict]
        rw [encodeValE_dict] at hnf
        cases hE : encodeEntriesE n b es [] with
        | error e =>
          rw [ihEE b es []
            (by rw [hE]; rw [hE] at hnf; exact nf_err fun c => hnf (by rw [c])), hE]
        | ok fs => rw [ihEE b es [] (by rw [hE]; exact nf_ok fs), hE]
      | str s => rfl
      | int i => rfl
      | bool bb => rfl
      | null => rfl
      | missing => rfl
      | date d => rfl
      | datetime d => rfl
    have stepEF : ∀ b fs vs acc, nf (encodeFieldsE (n + 1) b fs vs acc) →
        encodeFieldsE (m' + 1) b fs vs acc = encodeFieldsE (n + 1) b fs vs acc := by
      intro b fs vs acc hnf
      cases fs with
      | nil => rfl
      | cons f fr =>
        cases vs with
        | nil => rfl
        | cons v vr =>
          rw [encodeFieldsE_cons, encodeFieldsE_cons]
          rw [encodeFieldsE_cons] at hnf
          by_cases hmv : isMissing v = true
          · simp only [hmv, if_true] at hnf ⊢
            exact ihEF b fr vr acc hnf
          · simp only [hmv, Bool.false_eq_true, if_false] at hnf ⊢
            cases hs : (match f.ser with
                        | some h => if isNull v then .ok v else runHook h v
                        | none => .ok v : Except PyErr Value) with
            | error e => rfl
            | ok v1 =>
              rw [hs] at hnf
              simp only [] at hnf ⊢
              cases hEv : encodeValE n b v1 with
              | error e =>
                rw [ihEV b v1
                  (by rw [hEv]; rw [hEv] at hnf
                      exact nf_err fun c => hnf (by rw [c])), hEv]
              | ok w =>
                rw [ihEV b v1 (by rw [hEv]; exact nf_ok w), hEv]
                rw [hEv] at hnf
                exact ihEF b fr vr _ hnf
    have stepEL : ∀ b xs, nf (encodeListE (n + 1) b xs) →
        encodeListE (m' + 1) b xs = encodeListE (n + 1) b xs := by
      intro b xs hnf
      cases xs with
      | nil => rfl
      | cons x xr =>
        rw [encodeListE_cons, encodeListE_cons]
        rw [encodeListE_cons] at hnf
        cases hEv : encodeValE n b x with
        | error e =>
          rw [ihEV b x
            (by rw [hEv]; rw [hEv] at hnf; exact nf_err fun c => hnf (by rw [c])), hEv]
        | ok w =>
          rw [ihEV b x (by rw [hEv]; exact nf_ok w), hEv]
          rw [hEv] at hnf
          simp only [] at hnf ⊢
          cases hr : encodeListE n b xr with
          | error e =>
            rw [ihEL b xr
              (by rw [hr]; rw [hr] at hnf; exact nf_err fun c => hnf (by rw [c])), hr]
          | ok ws => rw [ihEL b xr (by rw [hr]; exact nf_ok ws), hr]
    have stepEE : ∀ b es acc, nf (encodeEntriesE (n + 1) b es acc) →
        encodeEntriesE (m' + 1) b es acc = encodeEntriesE (n + 1) b es acc := by
      intro b es acc hnf
      cases es with
      | nil => rfl
      | cons e er =>
        obtain ⟨k, v⟩ := e
        rw [encodeEntriesE_cons, encodeEntriesE_cons]
        rw [encodeEntriesE_cons] at hnf
        cases hEv : encodeValE n b v with
        | error e2 =>
          rw [ihEV b v
            (by rw [hEv]; rw [hEv] at hnf; exact nf_err fun c => hnf (by rw [c])), hEv]
        | ok w =>
          rw [ihEV b v (by rw [hEv]; exact nf_ok w), hEv]
          rw [hEv] at hnf
          exact ihEE b er _ hnf
    have stepDC : ∀ ty val b, nf (decodeCoreE (n + 1) ty val b) →
        decodeCoreE (m' + 1) ty val b = decodeCoreE (n + 1) ty val b := by
      intro ty val b hnf
      cases ty with
      | dc d =>
        rw [decodeCoreE_dc, decodeCoreE_dc]
        rw [decodeCoreE_dc] at hnf
        exact ihDD d val b hnf
      | tup ts =>
        rw [decodeCoreE_tup, decodeCoreE_tup]
        rw [decodeCoreE_tup] at hnf
        cases hi : pyIter val with
        | error e => rfl
        | ok xs =>
          rw [hi] at hnf
          simp only [] at hnf ⊢
          cases hT : decodeTupleE n b ts xs with
          | error e =>
            rw [ihDT b ts xs
              (by rw [hT]; rw [hT] at hnf; exact nf_err fun c => hnf (by rw [c])), hT]
          | ok ws => rw [ihDT b ts xs (by rw [hT]; exact nf_ok ws), hT]
      | list t =>
        rw [decodeCoreE_list, decodeCoreE_list]
        rw [decodeCoreE_list] at hnf
        cases hi : pyIter val with
        | error e => rfl
        | ok xs =>
          rw [hi] at hnf
          simp only [] at hnf ⊢
          cases hT : decodeListE n b t xs with
          | error e =>
            rw [ihDL b t xs
              (by rw [hT]; rw [hT] at hnf; exact nf_err fun c => hnf (by rw [c])), hT]
          | ok ws => rw [ihDL b t xs (by rw [hT]; exact nf_ok ws), hT]
      | union ts =>
        rw [decodeCoreE_union, decodeCoreE_union]
        rw [decodeCoreE_union] at hnf
        exact ihDU ts val b hnf
      | str => rfl
      | int => rfl
      | bool => rfl
      | null => rfl
      | date => rfl
      | datetime => rfl
      | dict => rfl
    have stepDF : ∀ ty val b fo, nf (decodeFieldE (n + 1) ty val b fo) →
        decodeFieldE (m' + 1) ty val b fo = decodeFieldE (n + 1) ty val b fo := by
      intro ty val b fo hnf
      rw [decodeFieldE_succ, decodeFieldE_succ]
      rw [decodeFieldE_succ] at hnf
      cases fo with
      | none => exact ihDC ty val b hnf
      | some f =>
        simp only [] at hnf ⊢
        cases hfd : f.deser with
        | none =>
          rw [hfd] at hnf
          exact ihDC ty val b hnf
        | some h2 =>
          rw [hfd] at hnf
          simp only [] at hnf ⊢
          by_cases hn : isNull val = true
          · simp only [hn, if_true] at hnf ⊢
            exact ihDC ty val b hnf
          · simp only [hn, Bool.false_eq_true, if_false]
    have stepDD : ∀ d raw b, nf (decodeDataclassE (n + 1) d raw b) →
        decodeDataclassE (m' + 1) d raw b = decodeDataclassE (n + 1) d raw b := by
      intro d raw b hnf
      rw [decodeDataclassE_succ, decodeDataclassE_succ]
      rw [decodeDataclassE_succ] at hnf
      cases hF : decodeFieldsE n raw b d.fieldsList with
      | error e =>
        rw [ihDFs raw b d.fieldsList
          (by rw [hF]; rw [hF] at hnf; exact nf_err fun c => hnf (by rw [c])), hF]
      | ok vals =>
        rw [ihDFs raw b d.fieldsList (by rw [hF]; exact nf_ok vals), hF]
    have stepDFs : ∀ raw b fs, nf (decodeFieldsE (n + 1) raw b fs) →
        decodeFieldsE (m' + 1) raw b fs = decodeFieldsE (n + 1) raw b fs := by
      intro raw b fs hnf
      cases fs with
      | nil => rfl
      | cons f fr =>
        rw [decodeFieldsE_cons, decodeFieldsE_cons]
        rw [decodeFieldsE_cons] at hnf
        cases hc : pyContains raw (fieldKey b f) with
        | error e => rfl
        | ok c =>
          rw [hc] at hnf
          simp only [] at hnf ⊢
          by_cases hcv : c = true
          · subst hcv
            simp only [if_true] at hnf ⊢
            cases hg : pyGetItem raw (fieldKey b f) with
            | error e => rfl
            | ok rv =>
              rw [hg] at hnf
              simp only [] at hnf ⊢
              by_cases hn : isNull rv = true
              · simp only [hn, if_true] at hnf ⊢
                cases hr : decodeFieldsE n raw b fr with
                | error e =>
                  rw [ihDFs raw b fr
                    (by rw [hr]; rw [hr] at hnf
                        exact nf_err fun c2 => hnf (by rw [c2])), hr]
                | ok vs => rw [ihDFs raw b fr (by rw [hr]; exact nf_ok vs), hr]
              · simp only [hn, Bool.false_eq_true, if_false] at hnf ⊢
                cases hd : decodeFieldE n f.fty rv b (some f) with
                | error e =>
                  rw [ihDF f.fty rv b (some f)
                    (by rw [hd]; rw [hd] at hnf
                        exact nf_err fun c2 => hnf (by rw [c2])), hd]
                | ok v =>
                  rw [ihDF f.fty rv b (some f) (by rw [hd]; exact nf_ok v), hd]
                  rw [hd] at hnf
                  simp only [] at hnf ⊢
                  cases hr : decodeFieldsE n raw b fr with
                  | error e =>
                    rw [ihDFs raw b fr
                      (by rw [hr]; rw [hr] at hnf
                          exact nf_err fun c2 => hnf (by rw [c2])), hr]
                  | ok vs => rw [ihDFs raw b fr (by rw [hr]; exact nf_ok vs), hr]
          · simp only [Bool.not_eq_true] at hcv
            subst hcv
            simp only [Bool.false_eq_true, if_false] at hnf ⊢
            cases hdf : f.dflt with
            | some dv =>
              rw [hdf] at hnf
              simp only [] at hnf ⊢
              cases hr : decodeFieldsE n raw b fr with
              | error e =>
                rw [ihDFs raw b fr
                  (by rw [hr]; rw [hr] at hnf
                      exact nf_err fun c2 => hnf (by rw [c2])), hr]
              | ok vs => rw [ihDFs raw b fr (by rw [hr]; exact nf_ok vs), hr]
            | none =>
              rw [hdf] at hnf
              simp only [] at hnf ⊢
              cases hfc : f.factory with
              | some fv =>
                rw [hfc] at hnf
                simp only [] at hnf ⊢
                cases hr : decodeFieldsE n raw b fr with
                | error e =>
                  rw [ihDFs raw b fr
                    (by rw [hr]; rw [hr] at hnf
                        exact nf_err fun c2 => hnf (by rw [c2])), hr]
                | ok vs => rw [ihDFs raw b fr (by rw [hr]; exact nf_ok vs), hr]
              | none => rfl
    have stepDT : ∀ b ts xs, nf (decodeTupleE (n + 1) b ts xs) →
        decodeTupleE (m' + 1) b ts xs = decodeTupleE (n + 1) b ts xs := by
      intro b ts xs hnf
      cases xs with
      | nil => rfl
      | cons v xr =>
        rw [decodeTupleE_cons, decodeTupleE_cons]
        rw [decodeTupleE_cons] at hnf
        cases ts with
        | nil => rfl
        | cons t tr =>
          simp only [] at hnf ⊢
          cases hd : decodeFieldE n t v b none with
          | error e =>
            rw [ihDF t v b none
              (by rw [hd]; rw [hd] at hnf; exact nf_err fun c => hnf (by rw [c])), hd]
          | ok w =>
            rw [ihDF t v b none (by rw [hd]; exact nf_ok w), hd]
            rw [hd] at hnf
            simp only [] at hnf ⊢
            cases hr : decodeTupleE n b tr xr with
            | error e =>
              rw [ihDT b tr xr
                (by rw [hr]; rw [hr] at hnf; exact nf_err fun c => hnf (by rw [c])), hr]
            | ok ws => rw [ihDT b tr xr (by rw [hr]; exact nf_ok ws), hr]
    have stepDL : ∀ b t xs, nf (decodeListE (n + 1) b t xs) →
        decodeListE (m' + 1) b t xs = decodeListE (n + 1) b t xs := by
      intro b t xs hnf
      cases xs with
      | nil => rfl
      | cons v xr =>
        rw [decodeListE_cons, decodeListE_cons]
        rw [decodeListE_cons] at hnf
        cases hd : decodeFieldE n t v b none with
        | error e =>
          rw [ihDF t v b none
            (by rw [hd]; rw [hd] at hnf; exact nf_err fun c => hnf (by rw [c])), hd]
        | ok w =>
          rw [ihDF t v b none (by rw [hd]; exact nf_ok w), hd]
          rw [hd] at hnf
          simp only [] at hnf ⊢
          cases hr : decodeListE n b t xr with
          | error e =>
            rw [ihDL b t xr
              (by rw [hr]; rw [hr] at hnf; exact nf_err fun c => hnf (by rw [c])), hr]
          | ok ws => rw [ihDL b t xr (by rw [hr]; exact nf_ok ws), hr]
    have stepDU : ∀ ts val b, nf (decodeUnionE (n + 1) ts val b) →
        decodeUnionE (m' + 1) ts val b = decodeUnionE (n + 1) ts val b := by
      intro ts val b hnf
      cases ts with
      | nil => rfl
      | cons t tr =>
        rw [decodeUnionE_cons, decodeUnionE_cons]
        rw [decodeUnionE_cons] at hnf
        cases hd : decodeFieldE n t val b none with
        | ok v => rw [ihDF t val b none (by rw [hd]; exact nf_ok v), hd]
        | error e =>
          rw [ihDF t val b none
            (by rw [hd]; rw [hd] at hnf; exact nf_err fun c => hnf (by rw [c])), hd]
          rw [hd] at hnf
          cases e with
          | valueError msg =>
            simp only [] at hnf ⊢
            exact ihDU tr val b hnf
          | typeError msg => rfl
          | indexError => rfl
          | keyError => rfl
          | attributeError => rfl
          | noFuel => rfl
    exact ⟨stepEV, stepEF, stepEL, stepEE, stepDF, stepDC, stepDD, stepDFs,
      stepDT, stepDL, stepDU⟩

/-! ## Round-trip machinery: monotonicity corollaries -/

theorem encodeValE_ok_mono {n m : Nat} (hm : n ≤ m) {b : Bool} {v r : Value}
    (h : encodeValE n b v = .ok r) : encodeValE m b v = .ok r := by
  rw [(monoAll n m hm).1 b v (by rw [h]; exact nf_ok r), h]

theorem encodeListE_ok_mono {n m : Nat} (hm : n ≤ m) {b : Bool}
    {xs ws : List Value} (h : encodeListE n b xs = .ok ws) :
    encodeListE m b xs = .ok ws := by
  rw [(monoAll n m hm).2.2.1 b xs (by rw [h]; exact nf_ok ws), h]

theorem encodeFieldsE_ok_mono {n m : Nat} (hm : n ≤ m) {b : Bool}
    {fs : List FieldD} {vs : List Value} {acc es : List (String × Value)}
    (h : encodeFieldsE n b fs vs acc = .ok es) :
    encodeFieldsE m b fs vs acc = .ok es := by
  rw [(monoAll n m hm).2.1 b fs vs acc (by rw [h]; exact nf_ok es), h]

theorem encodeEntriesE_ok_mono {n m : Nat} (hm : n ≤ m) {b : Bool}
    {es acc fs : List (String × Value)}
    (h : encodeEntriesE n b es acc = .ok fs) :
    encodeEntriesE m b es acc = .ok fs := by
  rw [(monoAll n m hm).2.2.2.1 b es acc (by rw [h]; exact nf_ok fs), h]

theorem decodeFieldE_ok_mono {n m : Nat} (hm : n ≤ m) {ty : Ty} {val : Value}
    {b : Bool} {fo : Option FieldD} {r : Value}
    (h : decodeFieldE n ty val b fo = .ok r) : decodeFieldE m ty val b fo = .ok r := by
  rw [(monoAll n m hm).2.2.2.2.1 ty val b fo (by rw [h]; exact nf_ok r), h]

theorem decodeFieldE_vErr_mono {n m : Nat} (hm : n ≤ m) {ty : Ty} {val : Value}
    {b : Bool} {fo : Option FieldD} {msg : String}
    (h : decodeFieldE n ty val b fo = .error (.valueError msg)) :
    decodeFieldE m ty val b fo = .error (.valueError msg) := by
  rw [(monoAll n m hm).2.2.2.2.1 ty val b fo
    (by rw [h]; exact nf_err (by intro c; exact PyErr.noConfusion c)), h]

theorem decodeFieldsE_ok_mono {n m : Nat} (hm : n ≤ m) {raw : Value} {b : Bool}
    {fs : List FieldD} {vs : List Value}
    (h : decodeFieldsE n raw b fs = .ok vs) : decodeFieldsE m raw b fs = .ok vs := by
  rw [(monoAll n m hm).2.2.2.2.2.2.2.1 raw b fs (by rw [h]; exact nf_ok vs), h]

theorem decodeTupleE_ok_mono {n m : Nat} (hm : n ≤ m) {b : Bool} {ts : List Ty}
    {xs ws : List Value} (h : decodeTupleE n b ts xs = .ok ws) :
    decodeTupleE m b ts xs = .ok ws := by
  rw [(monoAll n m hm).2.2.2.2.2.2.2.2.1 b ts xs (by rw [h]; exact nf_ok ws), h]

theorem decodeListE_ok_mono {n m : Nat} (hm : n ≤ m) {b : Bool} {t : Ty}
    {xs ws : List Value} (h : decodeListE n b t xs = .ok ws) :
    decodeListE m b t xs = .ok ws := by
  rw [(monoAll n m hm).2.2.2.2.2.2.2.2.2.1 b t xs (by rw [h]; exact nf_ok ws), h]

theorem decodeUnionE_ok_mono {n m : Nat} (hm : n ≤ m) {ts : List Ty}
    {val : Value} {b : Bool} {r : Value}
    (h : decodeUnionE n ts val b = .ok r) : decodeUnionE m ts val b = .ok r := by
  rw [(monoAll n m hm).2.2.2.2.2.2.2.2.2.2 ts val b (by rw [h]; exact nf_ok r), h]

/-! ## Round-trip machinery: wire-stable values

Values already in wire form (scalars, null, lists and dicts thereof) encode to
themselves — for dicts this needs unique keys and, when the convention flag is
on, keys without underscores (the blanket plain-mapping key transform would
rename them). -/

def wireStable : Nat → Bool → Value → Bool
  | 0, _, _ => false
  | _ + 1, _, .str _ => true
  | _ + 1, _, .int _ => true
  | _ + 1, _, .bool _ => true
  | _ + 1, _, .null => true
  | n + 1, b, .list xs => xs.all (fun x => wireStable n b x)
  | n + 1, b, .dict es =>
    decide ((es.map Prod.fst).Nodup) &&
      es.all (fun e => (!b || !(e.1.data.contains '_')) && wireStable n b e.2)
  | _ + 1, _, _ => false

theorem splitOnChar_no_sep (c : Char) :
    ∀ (cs : List Char), cs.contains c = false → splitOnChar c cs = [cs] := by
  intro cs
  induction cs with
  | nil => intro _; rfl
  | cons x xs ih =>
    intro h
    rw [List.contains_cons] at h
    simp only [Bool.or_eq_false_iff] at h
    have hxc : ¬ x = c := by
      intro hc
      subst hc
      simp at h
    rw [splitOnChar, if_neg hxc, ih h.2]

/-- A key without underscores is untouched by the naming transform. -/
theorem snake_to_camel_id (k : String) (h : k.data.contains '_' = false) :
    snake_to_camel k = k := by
  unfold snake_to_camel
  rw [splitOnChar_no_sep '_' k.data h]
  rfl

theorem dictAssign_new (acc : List (String × Value)) (k : String) (w : Value)
    (h : acc.any (fun e => e.1 == k) = false) :
    dictAssign acc k w = acc ++ [(k, w)] := by
  rw [dictAssign, if_neg (by simp [h])]

theorem any_key_eq_false {acc : List (String × Value)} {k : String}
    (h : k ∉ acc.map Prod.fst) : acc.any (fun e => e.1 == k) = false := by
  rw [List.any_eq_false]
  intro e he c
  have hek : e.1 = k := by simpa using c
  exact h (hek ▸ List.mem_map_of_mem Prod.fst he)

theorem encodeEntriesE_stable (b : Bool) :
    ∀ (es : List (String × Value)),
      (∀ e ∈ es, (!b || !(e.1.data.contains '_')) = true ∧
        ∃ m, encodeValE m b e.2 = .ok e.2) →
      ∀ acc : List (String × Value), ((acc ++ es).map Prod.fst).Nodup →
        ∃ m, encodeEntriesE m b es acc = .ok (acc ++ es) := by
  intro es
  induction es with
  | nil => intro _ acc _; exact ⟨1, by simp [encodeEntriesE]⟩
  | cons e er ih =>
    intro h acc hnd
    obtain ⟨k, v⟩ := e
    obtain ⟨hk, m1, hm1⟩ := h (k, v) (List.mem_cons_self _ _)
    have hkey : (if b then snake_to_camel k else k) = k := by
      cases b with
      | false => rfl
      | true => simpa using snake_to_camel_id k (by simpa using hk)
    have hnd' : (((acc ++ [(k, v)]) ++ er).map Prod.fst).Nodup := by
      rw [List.append_assoc]
      simpa using hnd
    have hknotin : k ∉ acc.map Prod.fst := by
      intro hmem
      have h2 := hnd
      rw [List.map_append, List.nodup_append] at h2
      exact h2.2.2 hmem (by simp)
    obtain ⟨mr, hmr⟩ := ih (fun e he => h e (List.mem_cons_of_mem _ he))
      (acc ++ [(k, v)]) hnd'
    refine ⟨max m1 mr + 1, ?_⟩
    rw [encodeEntriesE_cons, encodeValE_ok_mono (le_max_left m1 mr) hm1]
    simp only []
    rw [hkey, dictAssign_new acc k v (any_key_eq_false hknotin),
      encodeEntriesE_ok_mono (le_max_right m1 mr) hmr]
    simp [List.append_assoc]

/-- Wire-stable values encode to themselves. -/
theorem wireStable_encode (b : Bool) :
    ∀ (n : Nat) (v : Value), wireStable n b v = true →
      ∃ m, encodeValE m b v = .ok v := by
  intro n
  induction n with
  | zero => intro v h; exact absurd h (by simp [wireStable])
  | succ n ih =>
    intro v h
    cases v with
    | str s => exact ⟨1, rfl⟩
    | int i => exact ⟨1, rfl⟩
    | bool bb => exact ⟨1, rfl⟩
    | null => exact ⟨1, rfl⟩
    | missing => exact absurd h (by simp [wireStable])
    | date d => exact absurd h (by simp [wireStable])
    | datetime d => exact absurd h (by simp [wireStable])
    | tup xs => exact absurd h (by simp [wireStable])
    | inst d vals => exact absurd h (by simp [wireStable])
    | list xs =>
      rw [wireStable] at h
      rw [List.all_eq_true] at h
      have hlist : ∀ xs2 : List Value, (∀ x ∈ xs2, wireStable n b x = true) →
          ∃ m, encodeListE m b xs2 = .ok xs2 := by
        intro xs2
        induction xs2 with
        | nil => intro _; exact ⟨1, rfl⟩
        | cons x xr ihx =>
          intro hx
          obtain ⟨m1, hm1⟩ := ih x (hx x (List.mem_cons_self _ _))
          obtain ⟨m2, hm2⟩ := ihx (fun y hy => hx y (List.mem_cons_of_mem _ hy))
          refine ⟨max m1 m2 + 1, ?_⟩
          rw [encodeListE_cons, encodeValE_ok_mono (le_max_left m1 m2) hm1]
          simp only []
          rw [encodeListE_ok_mono (le_max_right m1 m2) hm2]
      obtain ⟨m, hm⟩ := hlist xs (fun x hx => h x hx)
      exact ⟨m + 1, by rw [encodeValE_list, hm]⟩
    | dict es =>
      rw [wireStable] at h
      rw [Bool.and_eq_true] at h
      obtain ⟨hnd, hall⟩ := h
      rw [List.all_eq_true] at hall
      obtain ⟨m, hm⟩ := encodeEntriesE_stable b es
        (fun e he => by
          have h2 := hall e he
          rw [Bool.and_eq_true] at h2
          exact ⟨h2.1, ih e.2 h2.2⟩)
        [] (by simpa using of_decide_eq_true hnd)
      exact ⟨m + 1, by rw [encodeValE_dict]; simp only [List.nil_append] at hm; rw [hm]⟩

/-! ## Round-trip machinery: well-typed instances

`Wt` is the executable-by-unfolding well-typedness family used as the
hypothesis of the amended round-trip claims.  It captures exactly the
conditions under which encode-then-decode is the identity: hook-free fields
with pairwise distinct resolved wire keys, values matching their declared
types (scalars are interchangeable, since scalar decoding is pass-through),
valid date components, wire-stable plain dicts, unions whose earlier members
reject the encoded value with a `ValueError`, and nested instances of the
declared class with no omit markers inside. -/

def isScalarV : Value → Bool
  | .str _ => true
  | .int _ => true
  | .bool _ => true
  | _ => false

def isVErr : Except PyErr Value → Bool
  | .error (.valueError _) => true
  | _ => false

def hasDefault (f : FieldD) : Bool := f.dflt.isSome || f.factory.isSome

/-- The value `_decode_dataclass` supplies for an absent key: `default` first,
else the factory's product (the `.null` fallback is never reached when
`hasDefault` holds). -/
def defaultOf (f : FieldD) : Value :=
  match f.dflt with
  | some dv => dv
  | none =>
    match f.factory with
    | some fv => fv
    | none => .null

/-- Field values after decoding an encoding: omitted (missing) values are
replaced by the field's default, all others survive unchanged. -/
def applyDefaults : List FieldD → List Value → List Value
  | f :: fr, v :: vr =>
    (if isMissing v then defaultOf f else v) :: applyDefaults fr vr
  | _, _ => []

/-- The wire keys the encoder emits: one per non-omitted field, in order. -/
def emitKeys (b : Bool) : List FieldD → List Value → List String
  | f :: fr, v :: vr =>
    if isMissing v then emitKeys b fr vr
    else fieldKey b f :: emitKeys b fr vr
  | _, _ => []

inductive WtQ where
  | elem (b : Bool) (v : Value) (t : Ty)
  | lst (b : Bool) (xs : List Value) (t : Ty)
  | tups (b : Bool) (xs : List Value) (ts : List Ty)
  | uni (b : Bool) (v : Value) (w : Value) (ts : List Ty)
  | flds (b : Bool) (fs : List FieldD) (vs : List Value)

def Wt : Nat → WtQ → Prop
  | 0, _ => False
  | n + 1, .elem b v t =>
    match t with
    | .str => isScalarV v = true
    | .int => isScalarV v = true
    | .bool => isScalarV v = true
    | .null => v = .null
    | .date => match v with | .date dv => dv.valid = true | _ => False
    | .datetime => match v with | .datetime dv => dv.valid = true | _ => False
    | .dict => match v with | .dict es => wireStable n b (.dict es) = true | _ => False
    | .list t2 => match v with | .list xs => Wt n (.lst b xs t2) | _ => False
    | .tup ts => match v with | .tup xs => Wt n (.tups b xs ts) | _ => False
    | .union ts =>
      match encodeValE n b v with
      | .ok w => Wt n (.uni b v w ts)
      | .error _ => False
    | .dc d =>
      match v with
      | .inst d2 vals =>
        d2 = d ∧ vals.all (fun x => !isMissing x) = true ∧
          Wt n (.flds b d.fieldsList vals)
      | _ => False
  | n + 1, .lst b xs t =>
    match xs with
    | [] => True
    | x :: xr => Wt n (.elem b x t) ∧ Wt n (.lst b xr t)
  | n + 1, .tups b xs ts =>
    match xs, ts with
    | [], [] => True
    | x :: xr, t :: tr => Wt n (.elem b x t) ∧ Wt n (.tups b xr tr)
    | _, _ => False
  | n + 1, .uni b v w ts =>
    match ts with
    | [] => False
    | t :: tr =>
      Wt n (.elem b v t) ∨
        (isVErr (decodeFieldE n t w b none) = true ∧ Wt n (.uni b v w tr))
  | n + 1, .flds b fs vs =>
    match fs, vs with
    | [], [] => True
    | f :: fr, v :: vr =>
      (f.ser = none ∧ f.deser = none ∧ fieldKey b f ∉ fr.map (fieldKey b) ∧
        (v = .null ∨ (v = .missing ∧ hasDefault f = true) ∨
          Wt n (.elem b v f.fty))) ∧
      Wt n (.flds b fr vr)
    | _, _ => False

/-! ### Small facts feeding the round-trip induction -/

/-- A successful encode maps null to null and nothing else to null. -/
theorem encode_isNull {n : Nat} {b : Bool} {v w : Value}
    (h : encodeValE n b v = .ok w) : isNull w = isNull v := by
  cases n with
  | zero => exact absurd h (by simp [encodeValE])
  | succ n =>
    cases v with
    | inst d vals =>
      rw [encodeValE_inst] at h
      cases hE : encodeFieldsE n b d.fieldsList vals [] with
      | error e => rw [hE] at h; simp at h
      | ok es =>
        rw [hE] at h
        simp only [Except.ok.injEq] at h
        subst h; rfl
    | list xs =>
      rw [encodeValE_list] at h
      cases hE : encodeListE n b xs with
      | error e => rw [hE] at h; simp at h
      | ok ws => rw [hE] at h; simp only [Except.ok.injEq] at h; subst h; rfl
    | tup xs =>
      rw [encodeValE_tup] at h
      cases hE : encodeListE n b xs with
      | error e => rw [hE] at h; simp at h
      | ok ws => rw [hE] at h; simp only [Except.ok.injEq] at h; subst h; rfl
    | dict es =>
      rw [encodeValE_dict] at h
      cases hE : encodeEntriesE n b es [] with
      | error e => rw [hE] at h; simp at h
      | ok fs => rw [hE] at h; simp only [Except.ok.injEq] at h; subst h; rfl
    | str s =>
      rw [show encodeValE (n + 1) b (.str s) = .ok (.str s) from rfl] at h
      simp only [Except.ok.injEq] at h; subst h; rfl
    | int i =>
      rw [show encodeValE (n + 1) b (.int i) = .ok (.int i) from rfl] at h
      simp only [Except.ok.injEq] at h; subst h; rfl
    | bool bb =>
      rw [show encodeValE (n + 1) b (.bool bb) = .ok (.bool bb) from rfl] at h
      simp only [Except.ok.injEq] at h; subst h; rfl
    | null =>
      rw [show encodeValE (n + 1) b .null = .ok .null from rfl] at h
      simp only [Except.ok.injEq] at h; subst h; rfl
    | missing =>
      rw [show encodeValE (n + 1) b .missing = .ok .missing from rfl] at h
      simp only [Except.ok.injEq] at h; subst h; rfl
    | date d =>
      rw [show encodeValE (n + 1) b (.date d) = .ok (.str d.isoformat) from rfl] at h
      simp only [Except.ok.injEq] at h; subst h; rfl
    | datetime d =>
      rw [show encodeValE (n + 1) b (.datetime d) = .ok (.str d.isoformat) from rfl] at h
      simp only [Except.ok.injEq] at h; subst h; rfl

/-- With no deserializer set, the field object is irrelevant to
`_decode_field`. -/
theorem decodeFieldE_deser_none (n : Nat) (ty : Ty) (val : Value) (b : Bool)
    (f : FieldD) (h : f.deser = none) :
    decodeFieldE (n + 1) ty val b (some f) = decodeFieldE (n + 1) ty val b none := by
  rw [decodeFieldE_succ, decodeFieldE_succ]
  simp only [h]

theorem dictAssign_append_left (acc1 acc2 : List (String × Value)) (k : String)
    (w : Value) (h : k ∉ acc1.map Prod.fst) :
    dictAssign (acc1 ++ acc2) k w = acc1 ++ dictAssign acc2 k w := by
  have hno : acc1.any (fun e => e.1 == k) = false := any_key_eq_false h
  unfold dictAssign
  rw [List.any_append, hno, Bool.false_or]
  cases hc : acc2.any (fun e => e.1 == k) with
  | true =>
    rw [if_pos rfl, List.map_append]
    congr 1
    have hid : ∀ e ∈ acc1, (if e.1 == k then (e.1, w) else e) = e := by
      intro e he
      rw [if_neg]
      intro c
      exact h ((eq_of_beq c) ▸ List.mem_map_of_mem Prod.fst he)
    rw [List.map_congr_left hid]
    exact List.map_id' acc1
  | false =>
    simp only [Bool.false_eq_true, if_false, List.append_assoc]

theorem emitKeys_subset (b : Bool) :
    ∀ (fs : List FieldD) (vs : List Value) (k : String),
      k ∈ emitKeys b fs vs → k ∈ fs.map (fieldKey b) := by
  intro fs
  induction fs with
  | nil => intro vs k h; simp [emitKeys] at h
  | cons f fr ih =>
    intro vs k h
    cases vs with
    | nil => simp [emitKeys] at h
    | cons v vr =>
      rw [emitKeys] at h
      by_cases hm : isMissing v = true
      · rw [if_pos hm] at h
        exact List.mem_cons_of_mem _ (ih vr k h)
      · rw [if_neg hm] at h
        rcases List.mem_cons.mp h with h1 | h1
        · exact h1 ▸ List.mem_cons_self _ _
        · exact List.mem_cons_of_mem _ (ih vr k h1)

/-- The field-encoding loop with a non-empty starting accumulator: as long as
no emitted key collides with the prefix, the prefix rides along unchanged. -/
theorem encodeFieldsE_acc :
    ∀ (m : Nat) (b : Bool) (fs : List FieldD) (vs : List Value)
      (acc1 acc2 : List (String × Value)),
      (∀ k ∈ emitKeys b fs vs, k ∉ acc1.map Prod.fst) →
      encodeFieldsE m b fs vs (acc1 ++ acc2) =
        (encodeFieldsE m b fs vs acc2).map (fun es => acc1 ++ es) := by
  intro m
  induction m with
  | zero => intro b fs vs acc1 acc2 _; rfl
  | succ m ih =>
    intro b fs vs acc1 acc2 hdisj
    cases fs with
    | nil => rfl
    | cons f fr =>
      cases vs with
      | nil => rfl
      | cons v vr =>
        rw [encodeFieldsE_cons, encodeFieldsE_cons]
        by_cases hm : isMissing v = true
        · simp only [hm, if_true]
          exact ih b fr vr acc1 acc2 (by
            intro k hk
            exact hdisj k (by rw [emitKeys, if_pos hm]; exact hk))
        · simp only [hm, Bool.false_eq_true, if_false]
          have hkeymem : fieldKey b f ∈ emitKeys b (f :: fr) (v :: vr) := by
            rw [emitKeys, if_neg hm]
            exact List.mem_cons_self _ _
          cases hs : (match f.ser with
                      | some h => if isNull v then .ok v else runHook h v
                      | none => .ok v : Except PyErr Value) with
          | error e => rfl
          | ok v1 =>
            simp only []
            cases hEv : encodeValE m b v1 with
            | error e => rfl
            | ok w =>
              simp only []
              rw [dictAssign_append_left acc1 acc2 (fieldKey b f) w
                (hdisj _ hkeymem)]
              exact ih b fr vr acc1 (dictAssign acc2 (fieldKey b f) w) (by
                intro k hk
                exact hdisj k (by
                  rw [emitKeys, if_neg hm]
                  exact List.mem_cons_of_mem _ hk))

theorem wt_flds_length :
    ∀ (n : Nat) (b : Bool) (fs : List FieldD) (vs : List Value),
      Wt n (.flds b fs vs) → vs.length = fs.length := by
  intro n
  induction n with
  | zero => intro b fs vs h; exact absurd h (by simp [Wt])
  | succ n ih =>
    intro b fs vs h
    cases fs with
    | nil =>
      cases vs with
      | nil => rfl
      | cons v vr => exact absurd h (by simp [Wt])
    | cons f fr =>
      cases vs with
      | nil => exact absurd h (by simp [Wt])
      | cons v vr =>
        rw [Wt] at h
        simpa using ih b fr vr h.2

theorem applyDefaults_no_missing :
    ∀ (fs : List FieldD) (vs : List Value), (∀ v ∈ vs, isMissing v = false) →
      vs.length = fs.length → applyDefaults fs vs = vs := by
  intro fs
  induction fs with
  | nil =>
    intro vs _ hlen
    rw [List.length_nil, List.length_eq_zero] at hlen
    subst hlen; rfl
  | cons f fr ih =>
    intro vs hnm hlen
    cases vs with
    | nil => simp at hlen
    | cons v vr =>
      rw [applyDefaults, if_neg (by rw [hnm v (List.mem_cons_self _ _)]; simp),
        ih vr (fun x hx => hnm x (List.mem_cons_of_mem _ hx)) (by simpa using hlen)]

theorem applyDefaults_append :
    ∀ (fsa : List FieldD) (vsa : List Value) (f : FieldD) (v : Value)
      (fsb : List FieldD) (vsb : List Value), vsa.length = fsa.length →
      applyDefaults (fsa ++ f :: fsb) (vsa ++ v :: vsb) =
        applyDefaults fsa vsa ++
          (if isMissing v then defaultOf f else v) :: applyDefaults fsb vsb := by
  intro fsa
  induction fsa with
  | nil =>
    intro vsa f v fsb vsb hlen
    rw [List.length_nil, List.length_eq_zero] at hlen
    subst hlen
    rfl
  | cons g fsr ih =>
    intro vsa f v fsb vsb hlen
    cases vsa with
    | nil => simp at hlen
    | cons x vsr =>
      simp only [List.cons_append, applyDefaults]
      congr 1
      exact ih vsr f v fsb vsb (by simpa using hlen)

/-- What well-typedness buys, per query: encode succeeds and decoding the
encoding restores the original (with omitted fields replaced by their
defaults at the field-list level). -/
def wtRT : WtQ → Prop
  | .elem b v t => ∃ m w, encodeValE m b v = .ok w ∧
      decodeFieldE m t w b none = .ok v ∧ isNull w = isNull v
  | .lst b xs t => ∃ m ws, encodeListE m b xs = .ok ws ∧
      decodeListE m b t ws = .ok xs
  | .tups b xs ts => ∃ m ws, encodeListE m b xs = .ok ws ∧
      decodeTupleE m b ts ws = .ok xs
  | .uni b v w ts => (∃ k, encodeValE k b v = .ok w) →
      ∃ m, decodeUnionE m ts w b = .ok v
  | .flds b fs vs => ∃ m es, encodeFieldsE m b fs vs [] = .ok es ∧
      decodeFieldsE m (.dict es) b fs = .ok (applyDefaults fs vs) ∧
      es.map Prod.fst = emitKeys b fs vs

theorem isNull_eq {v : Value} (h : isNull v = true) : v = .null := by
  cases v <;> simp [isNull] at h ⊢

/-- The omit sentinel is never well-typed for any declared type. -/
theorem wt_not_missing :
    ∀ (n : Nat), (∀ b t, ¬ Wt n (.elem b .missing t)) ∧
      (∀ b w ts, ¬ Wt n (.uni b .missing w ts)) := by
  intro n
  induction n with
  | zero => exact ⟨fun b t h => h.elim, fun b w ts h => h.elim⟩
  | succ n ih =>
    constructor
    · intro b t h
      cases t with
      | str => simp [Wt, isScalarV] at h
      | int => simp [Wt, isScalarV] at h
      | bool => simp [Wt, isScalarV] at h
      | null => exact Value.noConfusion h
      | date => exact h.elim
      | datetime => exact h.elim
      | dict => exact h.elim
      | list t2 => exact h.elim
      | tup ts => exact h.elim
      | union ts =>
        rw [Wt] at h
        rw [show encodeValE n b .missing =
          (match n with
           | 0 => (.error .noFuel : Except PyErr Value)
           | _ + 1 => .ok .missing) from by cases n <;> rfl] at h
        cases n with
        | zero => exact h.elim
        | succ n2 => exact ih.2 b .missing ts h
      | dc d => exact h.elim
    · intro b w ts h
      cases ts with
      | nil => exact h.elim
      | cons t tr =>
        rw [Wt] at h
        rcases h with h | ⟨_, h⟩
        · exact ih.1 b t h
        · exact ih.2 b w tr h

theorem lookup_cons_ne {k k2 : String} {w : Value} {es : List (String × Value)}
    (h : k2 ≠ k) : ((k, w) :: es).lookup k2 = es.lookup k2 := by
  rw [List.lookup, show (k2 == k) = false from by simpa using h]

/-- Field-loop step, key present: the loop reduces to the inner null test and
per-field decode, mirroring the structure of `_decode_dataclass`. -/
theorem decodeFields_cons_present (m : Nat) (raw : Value) (b : Bool)
    (f : FieldD) (fr : List FieldD) (w : Value)
    (hc : pyContains raw (fieldKey b f) = .ok true)
    (hg : pyGetItem raw (fieldKey b f) = .ok w) :
    decodeFieldsE (m + 1) raw b (f :: fr) =
      match (if isNull w then (.ok Value.null : Except PyErr Value)
             else decodeFieldE m f.fty w b (some f)) with
      | .error e => .error e
      | .ok v1 =>
        match decodeFieldsE m raw b fr with
        | .error e => .error e
        | .ok vs => .ok (v1 :: vs) := by
  rw [decodeFieldsE, hc, hg]
  rfl

/-- Field-loop step, key absent with a declared `default`: the default is taken
with no decoding. -/
theorem decodeFields_cons_absent_dflt (m : Nat) (raw : Value) (b : Bool)
    (f : FieldD) (fr : List FieldD) (dv : Value)
    (hc : pyContains raw (fieldKey b f) = .ok false)
    (hdft : f.dflt = some dv) :
    decodeFieldsE (m + 1) raw b (f :: fr) =
      match decodeFieldsE m raw b fr with
      | .ok vs => .ok (dv :: vs)
      | .error e => .error e := by
  rw [decodeFieldsE, hc, hdft]
  cases decodeFieldsE m raw b fr <;> rfl

/-- Field-loop step, key absent with no `default` but a `default_factory`: the
factory value is taken with no decoding. -/
theorem decodeFields_cons_absent_factory (m : Nat) (raw : Value) (b : Bool)
    (f : FieldD) (fr : List FieldD) (fv : Value)
    (hc : pyContains raw (fieldKey b f) = .ok false)
    (hdft : f.dflt = none) (hfct : f.factory = some fv) :
    decodeFieldsE (m + 1) raw b (f :: fr) =
      match decodeFieldsE m raw b fr with
      | .ok vs => .ok (fv :: vs)
      | .error e => .error e := by
  rw [decodeFieldsE, hc, hdft, hfct]
  cases decodeFieldsE m raw b fr <;> rfl

/-- Soundness of `Wt`: a well-typed query round-trips. -/
theorem wtSound : ∀ (n : Nat) (q : WtQ), Wt n q → wtRT q := by
  intro n
  induction n with
  | zero => intro q h; exact (h : False).elim
  | succ n ih =>
    intro q hwt
    cases q with
    | elem b v t =>
      cases t with
      | str =>
        have hsc : isScalarV v = true := hwt
        cases v <;> first
          | exact ⟨2, _, rfl, rfl, rfl⟩
          | simp [isScalarV] at hsc
      | int =>
        have hsc : isScalarV v = true := hwt
        cases v <;> first
          | exact ⟨2, _, rfl, rfl, rfl⟩
          | simp [isScalarV] at hsc
      | bool =>
        have hsc : isScalarV v = true := hwt
        cases v <;> first
          | exact ⟨2, _, rfl, rfl, rfl⟩
          | simp [isScalarV] at hsc
      | null =>
        have hv : v = .null := hwt
        subst hv
        exact ⟨2, .null, rfl, rfl, rfl⟩
      | date =>
        cases v with
        | date dv =>
          have hvalid : dv.valid = true := hwt
          have hparse : parseDate dv.isoformat = some dv := eq_of_beq hvalid
          refine ⟨2, .str dv.isoformat, rfl, ?_, rfl⟩
          rw [show decodeFieldE 2 .date (.str dv.isoformat) b none =
            (match parseDate dv.isoformat with
             | some d => (.ok (.date d) : Except PyErr Value)
             | none => .error (.valueError "Invalid isoformat string")) from rfl,
            hparse]
        | str s => exact hwt.elim
        | int i => exact hwt.elim
        | bool bb => exact hwt.elim
        | null => exact hwt.elim
        | missing => exact hwt.elim
        | datetime dv => exact hwt.elim
        | list xs => exact hwt.elim
        | tup xs => exact hwt.elim
        | dict es => exact hwt.elim
        | inst d2 vals => exact hwt.elim
      | datetime =>
        cases v with
        | datetime dv =>
          have hvalid : dv.valid = true := hwt
          have hparse : parseDateTime dv.isoformat = some dv := eq_of_beq hvalid
          refine ⟨2, .str dv.isoformat, rfl, ?_, rfl⟩
          rw [show decodeFieldE 2 .datetime (.str dv.isoformat) b none =
            (match parseDateTime dv.isoformat with
             | some d => (.ok (.datetime d) : Except PyErr Value)
             | none => .error (.valueError "Invalid isoformat string")) from rfl,
            hparse]
        | str s => exact hwt.elim
        | int i => exact hwt.elim
        | bool bb => exact hwt.elim
        | null => exact hwt.elim
        | missing => exact hwt.elim
        | date dv => exact hwt.elim
        | list xs => exact hwt.elim
        | tup xs => exact hwt.elim
        | dict es => exact hwt.elim
        | inst d2 vals => exact hwt.elim
      | dict =>
        cases v with
        | dict es =>
          have hws : wireStable n b (.dict es) = true := hwt
          obtain ⟨m, hm⟩ := wireStable_encode b n (.dict es) hws
          exact ⟨m + 2, .dict es, encodeValE_ok_mono (by omega) hm, rfl, rfl⟩
        | str s => exact hwt.elim
        | int i => exact hwt.elim
        | bool bb => exact hwt.elim
        | null => exact hwt.elim
        | missing => exact hwt.elim
        | date dv => exact hwt.elim
        | datetime dv => exact hwt.elim
        | list xs => exact hwt.elim
        | tup xs => exact hwt.elim
        | inst d2 vals => exact hwt.elim
      | list t2 =>
        cases v with
        | list xs =>
          have hsub : Wt n (.lst b xs t2) := hwt
          obtain ⟨m, ws, he, hd⟩ := ih (.lst b xs t2) hsub
          refine ⟨m + 2, .list ws, ?_, ?_, rfl⟩
          · rw [show (m + 2 : Nat) = (m + 1) + 1 from rfl, encodeValE_list,
              encodeListE_ok_mono (Nat.le_succ m) he]
          · rw [show decodeFieldE (m + 2) (.list t2) (.list ws) b none =
              (match decodeListE m b t2 ws with
               | .ok os => (.ok (.list os) : Except PyErr Value)
               | .error e => .error e) from rfl, hd]
        | str s => exact hwt.elim
        | int i => exact hwt.elim
        | bool bb => exact hwt.elim
        | null => exact hwt.elim
        | missing => exact hwt.elim
        | date dv => exact hwt.elim
        | datetime dv => exact hwt.elim
        | tup xs => exact hwt.elim
        | dict es => exact hwt.elim
        | inst d2 vals => exact hwt.elim
      | tup ts2 =>
        cases v with
        | tup xs =>
          have hsub : Wt n (.tups b xs ts2) := hwt
          obtain ⟨m, ws, he, hd⟩ := ih (.tups b xs ts2) hsub
          refine ⟨m + 2, .list ws, ?_, ?_, rfl⟩
          · rw [show (m + 2 : Nat) = (m + 1) + 1 from rfl, encodeValE_tup,
              encodeListE_ok_mono (Nat.le_succ m) he]
          · rw [show decodeFieldE (m + 2) (.tup ts2) (.list ws) b none =
              (match decodeTupleE m b ts2 ws with
               | .ok os => (.ok (.tup os) : Except PyErr Value)
               | .error e => .error e) from rfl, hd]
        | str s => exact hwt.elim
        | int i => exact hwt.elim
        | bool bb => exact hwt.elim
        | null => exact hwt.elim
        | missing => exact hwt.elim
        | date dv => exact hwt.elim
        | datetime dv => exact hwt.elim
        | list xs => exact hwt.elim
        | dict es => exact hwt.elim
        | inst d2 vals => exact hwt.elim
      | union ts2 =>
        rw [Wt] at hwt
        cases hw : encodeValE n b v with
        | error e => rw [hw] at hwt; exact hwt.elim
        | ok w =>
          rw [hw] at hwt
          obtain ⟨m, hm⟩ := ih (.uni b v w ts2) hwt ⟨n, hw⟩
          refine ⟨max n m + 2, w, encodeValE_ok_mono (by omega) hw, ?_,
            encode_isNull hw⟩
          rw [show decodeFieldE (max n m + 2) (.union ts2) w b none =
            decodeUnionE (max n m) ts2 w b from rfl,
            decodeUnionE_ok_mono (le_max_right n m) hm]
      | dc d =>
        cases v with
        | inst d2 vals =>
          obtain ⟨hd2, hnm, hflds⟩ := hwt
          subst hd2
          obtain ⟨m, es, he, hdec, hkeys⟩ := ih (.flds b d2.fieldsList vals) hflds
          have hlen := wt_flds_length n b d2.fieldsList vals hflds
          have hnm' : ∀ x ∈ vals, isMissing x = false := by
            intro x hx
            have := List.all_eq_true.mp hnm x hx
            simpa using this
          have hAD : applyDefaults d2.fieldsList vals = vals :=
            applyDefaults_no_missing _ _ hnm' hlen
          refine ⟨m + 3, .dict es, ?_, ?_, rfl⟩
          · rw [show (m + 3 : Nat) = (m + 2) + 1 from rfl, encodeValE_inst,
              encodeFieldsE_ok_mono (by omega) he]
          · rw [show decodeFieldE (m + 3) (.dc d2) (.dict es) b none =
              (match decodeFieldsE m (.dict es) b d2.fieldsList with
               | .ok vls => (.ok (.inst d2 vls) : Except PyErr Value)
               | .error e => .error e) from rfl, hdec, hAD]
        | str s => exact hwt.elim
        | int i => exact hwt.elim
        | bool bb => exact hwt.elim
        | null => exact hwt.elim
        | missing => exact hwt.elim
        | date dv => exact hwt.elim
        | datetime dv => exact hwt.elim
        | list xs => exact hwt.elim
        | tup xs => exact hwt.elim
        | dict es => exact hwt.elim
    | lst b xs t =>
      cases xs with
      | nil => exact ⟨1, [], rfl, rfl⟩
      | cons x xr =>
        obtain ⟨h1, h2⟩ := hwt
        obtain ⟨m1, w1, he1, hd1, _⟩ := ih (.elem b x t) h1
        obtain ⟨m2, ws, he2, hd2⟩ := ih (.lst b xr t) h2
        refine ⟨max m1 m2 + 1, w1 :: ws, ?_, ?_⟩
        · rw [encodeListE_cons, encodeValE_ok_mono (le_max_left m1 m2) he1]
          simp only []
          rw [encodeListE_ok_mono (le_max_right m1 m2) he2]
        · rw [decodeListE_cons, decodeFieldE_ok_mono (le_max_left m1 m2) hd1]
          simp only []
          rw [decodeListE_ok_mono (le_max_right m1 m2) hd2]
    | tups b xs ts =>
      cases xs with
      | nil =>
        cases ts with
        | nil => exact ⟨1, [], rfl, rfl⟩
        | cons t tr => exact hwt.elim
      | cons x xr =>
        cases ts with
        | nil => exact hwt.elim
        | cons t tr =>
          obtain ⟨h1, h2⟩ := hwt
          obtain ⟨m1, w1, he1, hd1, _⟩ := ih (.elem b x t) h1
          obtain ⟨m2, ws, he2, hd2⟩ := ih (.tups b xr tr) h2
          refine ⟨max m1 m2 + 1, w1 :: ws, ?_, ?_⟩
          · rw [encodeListE_cons, encodeValE_ok_mono (le_max_left m1 m2) he1]
            simp only []
            rw [encodeListE_ok_mono (le_max_right m1 m2) he2]
          · rw [decodeTupleE_cons]
            simp only []
            rw [decodeFieldE_ok_mono (le_max_left m1 m2) hd1]
            simp only []
            rw [decodeTupleE_ok_mono (le_max_right m1 m2) hd2]
    | uni b v w ts =>
      intro henc
      cases ts with
      | nil => exact hwt.elim
      | cons t tr =>
        obtain ⟨k, hk⟩ := henc
        rcases hwt with hel | ⟨hve, hrest⟩
        · obtain ⟨m1, w1, he1, hd1, _⟩ := ih (.elem b v t) hel
          have hww : w1 = w := by
            have e1 := encodeValE_ok_mono (le_max_left m1 k) he1
            have e2 := encodeValE_ok_mono (le_max_right m1 k) hk
            rw [e1] at e2
            injection e2
          subst hww
          refine ⟨m1 + 1, ?_⟩
          rw [decodeUnionE_cons, hd1]
        · obtain ⟨m2, hm2⟩ := ih (.uni b v w tr) hrest ⟨k, hk⟩
          obtain ⟨msg, hmsg⟩ : ∃ msg,
              decodeFieldE n t w b none = .error (.valueError msg) := by
            cases hd : decodeFieldE n t w b none with
            | ok r => rw [hd] at hve; simp [isVErr] at hve
            | error e =>
              cases e with
              | valueError msg => exact ⟨msg, rfl⟩
              | typeError m3 => rw [hd] at hve; simp [isVErr] at hve
              | indexError => rw [hd] at hve; simp [isVErr] at hve
              | keyError => rw [hd] at hve; simp [isVErr] at hve
              | attributeError => rw [hd] at hve; simp [isVErr] at hve
              | noFuel => rw [hd] at hve; simp [isVErr] at hve
          refine ⟨max n m2 + 1, ?_⟩
          rw [decodeUnionE_cons, decodeFieldE_vErr_mono (le_max_left n m2) hmsg]
          simp only []
          exact decodeUnionE_ok_mono (le_max_right n m2) hm2
    | flds b fs vs =>
      cases fs with
      | nil =>
        cases vs with
        | nil => exact ⟨1, [], rfl, rfl, rfl⟩
        | cons v vr => exact hwt.elim
      | cons f fr =>
        cases vs with
        | nil => exact hwt.elim
        | cons v vr =>
          obtain ⟨⟨hser, hdeser, hknotin, hOK⟩, hrest⟩ := hwt
          obtain ⟨m2, esT, heT, hdT, hkT⟩ := ih (.flds b fr vr) hrest
          have hkeyT : fieldKey b f ∉ esT.map Prod.fst := by
            rw [hkT]
            intro hmem
            exact hknotin (emitKeys_subset b fr vr _ hmem)
          have main : ∀ (m1 : Nat) (w : Value), encodeValE m1 b v = .ok w →
              isNull w = isNull v →
              (isNull v = false → decodeFieldE m1 f.fty w b none = .ok v) →
              isMissing v = false → wtRT (.flds b (f :: fr) (v :: vr)) := by
            intro m1 w he1 hn1 hd1c hvnm
            have hdisj1 : ∀ k2 ∈ emitKeys b fr vr,
                k2 ∉ ([(fieldKey b f, w)] : List (String × Value)).map Prod.fst := by
              intro k2 hk2
              simp only [List.map_cons, List.map_nil, List.mem_singleton]
              intro hc
              exact hknotin (hc ▸ emitKeys_subset b fr vr k2 hk2)
            have henc2 : encodeFieldsE (max m1 m2 + 1) b fr vr
                [(fieldKey b f, w)] = .ok ((fieldKey b f, w) :: esT) := by
              have h1 := encodeFieldsE_acc (max m1 m2 + 1) b fr vr
                [(fieldKey b f, w)] [] hdisj1
              rw [encodeFieldsE_ok_mono
                (Nat.le_succ_of_le (le_max_right m1 m2)) heT] at h1
              simpa using h1
            refine ⟨max m1 m2 + 2, (fieldKey b f, w) :: esT, ?_, ?_, ?_⟩
            · rw [show (max m1 m2 + 2 : Nat) = (max m1 m2 + 1) + 1 from rfl,
                encodeFieldsE_cons, if_neg (by rw [hvnm]; simp), hser]
              simp only []
              rw [encodeValE_ok_mono
                (Nat.le_succ_of_le (le_max_left m1 m2)) he1]
              simp only []
              rw [show dictAssign [] (fieldKey b f) w = [(fieldKey b f, w)] from rfl]
              exact henc2
            · have hc1 : pyContains (.dict ((fieldKey b f, w) :: esT))
                  (fieldKey b f) = .ok true := by simp [pyContains]
              have hg1 : pyGetItem (.dict ((fieldKey b f, w) :: esT))
                  (fieldKey b f) = .ok w := by simp [pyGetItem, List.lookup]
              have hext : decodeFieldsE (max m1 m2 + 1)
                  (.dict ((fieldKey b f, w) :: esT)) b fr =
                  decodeFieldsE (max m1 m2 + 1) (.dict esT) b fr := by
                refine decodeFields_ext b (max m1 m2 + 1) fr _ _ (fun g hg2 => ?_)
                refine lookup_cons_ne (fun hc => ?_)
                exact hknotin (hc ▸ List.mem_map_of_mem (fieldKey b) hg2)
              have htail : decodeFieldsE (max m1 m2 + 1)
                  (.dict ((fieldKey b f, w) :: esT)) b fr =
                  .ok (applyDefaults fr vr) := by
                rw [hext]
                exact decodeFieldsE_ok_mono
                  (Nat.le_succ_of_le (le_max_right m1 m2)) hdT
              have hADc : applyDefaults (f :: fr) (v :: vr) =
                  v :: applyDefaults fr vr := by
                rw [show applyDefaults (f :: fr) (v :: vr) =
                  (if isMissing v then defaultOf f else v) ::
                    applyDefaults fr vr from rfl, hvnm]
                simp
              rw [show (max m1 m2 + 2 : Nat) = (max m1 m2 + 1) + 1 from rfl,
                decodeFields_cons_present (max m1 m2 + 1) _ b f fr w hc1 hg1,
                htail, hADc]
              by_cases hnw : isNull w = true
              · have hv : v = .null := isNull_eq (by rw [← hn1]; exact hnw)
                subst hv
                rw [hnw, if_pos rfl]
              · have hvnn : isNull v = false := by
                  rw [← hn1]
                  simpa using hnw
                rw [if_neg hnw,
                  decodeFieldE_deser_none (max m1 m2) f.fty w b f hdeser,
                  decodeFieldE_ok_mono
                    (Nat.le_succ_of_le (le_max_left m1 m2)) (hd1c hvnn)]
            · rw [show emitKeys b (f :: fr) (v :: vr) =
                fieldKey b f :: emitKeys b fr vr from by
                  rw [emitKeys, if_neg (by rw [hvnm]; simp)]]
              simp only [List.map_cons]
              rw [hkT]
          rcases hOK with hv | ⟨hvm, hdf⟩ | hwel
          · subst hv
            exact main 1 .null rfl rfl (fun hc => by simp [isNull] at hc) rfl
          · subst hvm
            refine ⟨m2 + 1, esT, ?_, ?_, ?_⟩
            · rw [encodeFieldsE_cons,
                if_pos (show isMissing Value.missing = true from rfl)]
              exact heT
            · have hc0 : pyContains (.dict esT) (fieldKey b f) = .ok false := by
                simp [pyContains, any_key_eq_false hkeyT]
              have hADm : applyDefaults (f :: fr) (Value.missing :: vr) =
                  defaultOf f :: applyDefaults fr vr := by
                rw [show applyDefaults (f :: fr) (Value.missing :: vr) =
                  (if isMissing Value.missing then defaultOf f else Value.missing) ::
                    applyDefaults fr vr from rfl]
                simp [isMissing]
              cases hdft : f.dflt with
              | some dv =>
                rw [decodeFields_cons_absent_dflt m2 _ b f fr dv hc0 hdft,
                  hdT, hADm, show defaultOf f = dv from by rw [defaultOf, hdft]]
              | none =>
                cases hfct : f.factory with
                | some fv =>
                  rw [decodeFields_cons_absent_factory m2 _ b f fr fv hc0 hdft
                      hfct,
                    hdT, hADm, show defaultOf f = fv from by
                      rw [defaultOf, hdft]
                      simp only []
                      rw [hfct]]
                | none =>
                  rw [hasDefault, hdft, hfct] at hdf
                  simp at hdf
            · rw [show emitKeys b (f :: fr) (Value.missing :: vr) =
                emitKeys b fr vr from by
                  rw [emitKeys, if_pos (show isMissing Value.missing = true from rfl)]]
              exact hkT
          · have hvnm : isMissing v = false := by
              cases v with
              | missing => exact absurd hwel ((wt_not_missing n).1 b f.fty)
              | str s => rfl
              | int i => rfl
              | bool bb => rfl
              | null => rfl
              | date dv => rfl
              | datetime dv => rfl
              | list xs => rfl
              | tup xs => rfl
              | dict es => rfl
              | inst d2 vals => rfl
            obtain ⟨m1, w, he1, hd1, hn1⟩ := ih (.elem b v f.fty) hwel
            exact main m1 w he1 hn1 (fun _ => hd1) hvnm

/-- `emitKeys` distributes over parallel appends of aligned field/value lists. -/
theorem emitKeys_append (b : Bool) :
    ∀ (fsa : List FieldD) (vsa : List Value) (fsb : List FieldD)
      (vsb : List Value), vsa.length = fsa.length →
      emitKeys b (fsa ++ fsb) (vsa ++ vsb) =
        emitKeys b fsa vsa ++ emitKeys b fsb vsb := by
  intro fsa
  induction fsa with
  | nil =>
    intro vsa fsb vsb hlen
    rw [List.length_nil, List.length_eq_zero] at hlen
    subst hlen
    rfl
  | cons f fr ih =>
    intro vsa fsb vsb hlen
    cases vsa with
    | nil => simp at hlen
    | cons v vr =>
      rw [List.cons_append, List.cons_append, emitKeys, emitKeys]
      by_cases hm : isMissing v = true
      · rw [if_pos hm, if_pos hm, ih vr fsb vsb (by simpa using hlen)]
      · rw [if_neg hm, if_neg hm, ih vr fsb vsb (by simpa using hlen),
          List.cons_append]

/-- In a well-typed field list, the resolved wire key of a field at any
position is distinct from the keys of all fields before it and absent from the
keys of all fields after it. -/
theorem wt_key_fresh :
    ∀ (n : Nat) (fsa : List FieldD) (b : Bool) (vsa : List Value) (f : FieldD)
      (fsb : List FieldD) (v0 : Value) (vsb : List Value),
      vsa.length = fsa.length →
      Wt n (.flds b (fsa ++ f :: fsb) (vsa ++ v0 :: vsb)) →
      (∀ g ∈ fsa, fieldKey b g ≠ fieldKey b f) ∧
        fieldKey b f ∉ fsb.map (fieldKey b) := by
  intro n fsa
  induction fsa generalizing n with
  | nil =>
    intro b vsa f fsb v0 vsb hlen hwt
    rw [List.length_nil, List.length_eq_zero] at hlen
    subst hlen
    cases n with
    | zero => exact (hwt : False).elim
    | succ n =>
      obtain ⟨⟨_, _, hk, _⟩, _⟩ := hwt
      exact ⟨by simp, hk⟩
  | cons g fsr ih =>
    intro b vsa f fsb v0 vsb hlen hwt
    cases vsa with
    | nil => simp at hlen
    | cons v vr =>
      cases n with
      | zero => exact (hwt : False).elim
      | succ n =>
        obtain ⟨⟨_, _, hk, _⟩, hrest⟩ := hwt
        obtain ⟨ha, hb⟩ := ih n b vr f fsb v0 vsb (by simpa using hlen) hrest
        refine ⟨?_, hb⟩
        intro g2 hg2
        rcases List.mem_cons.mp hg2 with hgg | hgr
        · subst hgg
          intro hc
          apply hk
          rw [hc]
          exact List.mem_map_of_mem (fieldKey b) (by simp)
        · exact ha g2 hgr

/-- C1 (amended): the round-trip law holds — with the naming convention off or
on symmetrically — for every record instance whose field values contain no
omit marker, *provided* the instance is well-typed for its record type in the
sense of `Wt`: no custom serializer/deserializer hooks, pairwise-distinct
resolved wire keys, values structurally matching their declared types (union
values re-encoding to a wire value that resolves back to them), and dict
values wire-stable (no string keys that the convention would rewrite).  The
unqualified claim is refuted by `C1_counterexample`. -/
theorem C1_roundtrip_amended (n : Nat) (b : Bool) (d : DataClass)
    (vals : List Value)
    (hwt : Wt n (.flds b d.fieldsList vals))
    (hnm : vals.all (fun v => !isMissing v) = true) :
    ∃ (m : Nat) (es : List (String × Value)),
      encodeValE m b (.inst d vals) = .ok (.dict es) ∧
        decodeDataclassE m d (.dict es) b = .ok (.inst d vals) := by
  obtain ⟨m, es, he, hd, -⟩ := wtSound n (.flds b d.fieldsList vals) hwt
  have hlen := wt_flds_length n b d.fieldsList vals hwt
  have hnm2 : ∀ v ∈ vals, isMissing v = false := by
    intro x hx
    have := List.all_eq_true.mp hnm x hx
    simpa using this
  have hAD := applyDefaults_no_missing d.fieldsList vals hnm2 hlen
  refine ⟨m + 1, es, ?_, ?_⟩
  · rw [encodeValE_inst, he]
  · rw [decodeDataclassE_succ, hd, hAD]

/-- The two-field snake-case record of the C1 witness. -/
def C1wcls : DataClass :=
  .mk "W" [.mk "user_name" .str none none none none none,
           .mk "user_age" .int none none none none none]

/-- C1 witness: the spec's own example — a record with fields `user_name`,
`user_age` holding `"Alice"` and `30` — round-trips with the naming convention
on. -/
theorem C1_roundtrip_witness :
    ∃ (m : Nat) (es : List (String × Value)),
      encodeValE m true (.inst C1wcls [.str "Alice", .int 30]) =
          .ok (.dict es) ∧
        decodeDataclassE m C1wcls (.dict es) true =
          .ok (.inst C1wcls [.str "Alice", .int 30]) :=
  C1_roundtrip_amended 3 true C1wcls [.str "Alice", .int 30]
    ⟨⟨rfl, rfl, by decide, Or.inr (Or.inr rfl)⟩,
     ⟨⟨rfl, rfl, by decide, Or.inr (Or.inr rfl)⟩, trivial⟩⟩ rfl

/-- The one-field record of the C1 counterexample: a single dict-typed field. -/
def C1ccls : DataClass := .mk "D" [.mk "d" .dict none none none none none]

/-- C1 counterexample: with the naming convention on symmetrically, a record
holding the dict value `{"a_b": 1}` — no omit markers anywhere — encodes with
the dict key rewritten to `"aB"`, and decoding is a pass-through on dicts, so
the round trip returns `{"aB": 1}`: a value different from the original. -/
theorem C1_counterexample :
    ([Value.dict [("a_b", Value.int 1)]].all (fun v => !isMissing v) = true) ∧
    (match encodeValE 10 true
        (.inst C1ccls [.dict [("a_b", Value.int 1)]]) with
     | .ok w => decodeDataclassE 10 C1ccls w true
     | .error e => .error e) =
      .ok (.inst C1ccls [.dict [("aB", Value.int 1)]]) ∧
    Value.inst C1ccls [.dict [("aB", Value.int 1)]] ≠
      Value.inst C1ccls [.dict [("a_b", Value.int 1)]] := by
  refine ⟨rfl, rfl, fun h => ?_⟩
  simp at h

/-- C5 (amended): for a well-typed record instance whose field at some
position holds the omit marker and whose descriptor carries a `default`, the
encoder emits no entry at all for that field — its resolved wire key is absent
from the produced mapping — and decoding the produced mapping back yields the
declared default at that position (and, as `applyDefaults` shows, the original
values elsewhere).  The well-typedness proviso `Wt` in particular requires
pairwise-distinct resolved wire keys; without it the claim fails
(`C5_counterexample`). -/
theorem C5_omit_default_amended (n : Nat) (b : Bool) (fsa : List FieldD)
    (f : FieldD) (fsb : List FieldD) (vsa : List Value) (vsb : List Value)
    (dv : Value)
    (hwt : Wt n (.flds b (fsa ++ f :: fsb) (vsa ++ .missing :: vsb)))
    (hlen : vsa.length = fsa.length)
    (hdflt : f.dflt = some dv) :
    ∃ (m : Nat) (es : List (String × Value)),
      encodeFieldsE m b (fsa ++ f :: fsb) (vsa ++ .missing :: vsb) [] =
          .ok es ∧
        fieldKey b f ∉ es.map Prod.fst ∧
        decodeFieldsE m (.dict es) b (fsa ++ f :: fsb) =
          .ok (applyDefaults fsa vsa ++ dv :: applyDefaults fsb vsb) := by
  obtain ⟨m, es, he, hd, hkeys⟩ := wtSound n _ hwt
  obtain ⟨hfresh, hfsb⟩ := wt_key_fresh n fsa b vsa f fsb .missing vsb hlen hwt
  refine ⟨m, es, he, ?_, ?_⟩
  · rw [hkeys, emitKeys_append b fsa vsa (f :: fsb) (.missing :: vsb) hlen,
      show emitKeys b (f :: fsb) (Value.missing :: vsb) =
        emitKeys b fsb vsb from by
          rw [emitKeys, if_pos (show isMissing Value.missing = true from rfl)]]
    intro hmem
    rcases List.mem_append.mp hmem with hma | hmb
    · obtain ⟨g, hg, hgk⟩ := List.mem_map.mp (emitKeys_subset b fsa vsa _ hma)
      exact hfresh g hg hgk
    · obtain ⟨g, hg, hgk⟩ := List.mem_map.mp (emitKeys_subset b fsb vsb _ hmb)
      exact hfsb (by rw [← hgk]; exact List.mem_map_of_mem _ hg)
  · rw [hd, applyDefaults_append fsa vsa f .missing fsb vsb hlen,
      if_pos (show isMissing Value.missing = true from rfl),
      show defaultOf f = dv from by rw [defaultOf, hdflt]]

/-- The required first field of the C5 witness record. -/
def C5fname : FieldD := .mk "name" .str none none none none none

/-- The defaulted second field of the C5 witness record: `int`, default `7`. -/
def C5fage : FieldD := .mk "age" .int (some (.int 7)) none none none none

/-- C5 witness: a record `{name: string, age: int = 7}` with `age` omitted
encodes without an `"age"` key and decodes back with `age = 7`. -/
theorem C5_omit_default_witness :
    ∃ (m : Nat) (es : List (String × Value)),
      encodeFieldsE m false ([C5fname] ++ C5fage :: [])
          ([.str "Alice"] ++ .missing :: []) [] = .ok es ∧
        fieldKey false C5fage ∉ es.map Prod.fst ∧
        decodeFieldsE m (.dict es) false ([C5fname] ++ C5fage :: []) =
          .ok (applyDefaults [C5fname] [.str "Alice"] ++
            Value.int 7 :: applyDefaults [] []) :=
  C5_omit_default_amended 3 false [C5fname] C5fage [] [.str "Alice"] []
    (.int 7)
    ⟨⟨rfl, rfl, by decide, Or.inr (Or.inr rfl)⟩,
     ⟨⟨rfl, rfl, by decide, Or.inr (Or.inl ⟨rfl, rfl⟩)⟩, trivial⟩⟩ rfl rfl

/-- The omitted, defaulted field of the C5 counterexample: wire name `"k"`,
default `0`. -/
def C5ca : FieldD := .mk "a" .int (some (.int 0)) none (some "k") none none

/-- The colliding second field of the C5 counterexample: same wire name
`"k"`. -/
def C5cb : FieldD := .mk "b" .int none none (some "k") none none

/-- The two-field record of the C5 counterexample, both fields resolving to
the wire key `"k"`. -/
def C5ccls : DataClass := .mk "C" [C5ca, C5cb]

/-- C5 counterexample: with two fields sharing the wire name `"k"`, a record
whose first field (default `0`) holds the omit marker encodes to `{"k": 5}`
(the entry of the *second* field), and decoding that mapping back assigns `5`
to the omitted field — not its declared default `0`. -/
theorem C5_counterexample :
    (match encodeValE 9 false (.inst C5ccls [.missing, .int 5]) with
     | .ok w => decodeDataclassE 9 C5ccls w false
     | .error e => .error e) =
      .ok (.inst C5ccls [Value.int 5, Value.int 5]) ∧
    C5ca.dflt = some (Value.int 0) ∧
    (Value.int 5 : Value) ≠ Value.int 0 := by
  refine ⟨rfl, rfl, fun h => ?_⟩
  simp at h

end DCodec
